import Mathlib

/-! # gin-rate-limiter: the rate-limiting decision engine

A shallow embedding of `limiter/store.go`, `limiter/memory_store.go`,
`limiter/redis_store.go` and `limiter/limiter.go`.

Modelling conventions.

* Go `int` / `int64` values are mathematical integers (`Int`); counters and nanosecond clocks
  stay far from the 64-bit limits in every statement below. The one product of the source,
  `window*2`, is wrapped to 64 bits.
* A Go `float64` value is the rational it denotes, and every `float64` operation of the handlers
  (`Duration.Seconds`, the conversions and the arithmetic of the sliding window counter) rounds
  its exact result to the nearest `float64`, each operation on its own, as the compiler for amd64
  emits them. The Lua numbers of the Redis script are exact rationals, as the claims about the
  script take them.
* `time.Time` and `time.Duration` are integers counting nanoseconds.
* The goroutine `cleanup` that `NewMemoryStore` starts is the step `MemoryStore.cleanup`, one pass
  of its loop; a run of the in-process store is a sequence of requests and such passes, at any
  distance in time from one another.
* A Go `error` is `Option String`, `none` being `nil`; a call returning `(v, err)` returns the pair.
* Handlers are run one after the other on an explicit store state; the request is represented by
  the client IP that `getIdentifier` extracts and by the clock reading(s) the handler takes.
* Only the verdict of a handler is kept (continue, 429, 500); response headers are not modelled.
-/

namespace Limiter

/-! ## Go primitives -/

/-- Go `error`: `none` is `nil`. -/
abbrev GoError := Option String

/-- The constant `time.Second`, in nanoseconds. -/
def Second : Int := 1000000000

/-- Rounding of a rational to the nearest integer, ties to the even one. -/
def roundEven (x : ℚ) : Int :=
  if x - (⌊x⌋ : ℚ) < 1 / 2 then ⌊x⌋
  else if 1 / 2 < x - (⌊x⌋ : ℚ) then ⌊x⌋ + 1
  else if ⌊x⌋ % 2 = 0 then ⌊x⌋ else ⌊x⌋ + 1

/-- The `float64` nearest to a rational: 53 significant bits, round to nearest, ties to even.
Overflow and subnormal numbers are left out. -/
def float64 (q : ℚ) : ℚ :=
  if q = 0 then 0
  else (roundEven (q / (2 : ℚ) ^ (Int.log 2 |q| - 52)) : ℚ) * (2 : ℚ) ^ (Int.log 2 |q| - 52)

/-- The `float64` sum. -/
def fadd (a b : ℚ) : ℚ := float64 (a + b)

/-- The `float64` difference. -/
def fsub (a b : ℚ) : ℚ := float64 (a - b)

/-- The `float64` product. -/
def fmul (a b : ℚ) : ℚ := float64 (a * b)

/-- The `float64` quotient. -/
def fdiv (a b : ℚ) : ℚ := float64 (a / b)

/-- The conversion `float64(n)` of an integer. -/
def ofInt (n : Int) : ℚ := float64 (n : ℚ)

/-- A value of `int64` arithmetic: the result wraps around modulo `2^64`. -/
def wrapInt64 (x : Int) : Int := (x + 2 ^ 63) % 2 ^ 64 - 2 ^ 63

/-- The method `time.Duration.Seconds`: `sec := d / Second; nsec := d % Second;
return float64(sec) + float64(nsec)/1e9`. -/
def Seconds (d : Int) : ℚ :=
  fadd (ofInt (Int.tdiv d Second)) (fdiv (ofInt (Int.tmod d Second)) 1000000000)

/-- Go conversion of a floating-point value to an integer type: truncation toward zero. -/
def goInt (q : ℚ) : Int := Int.tdiv q.num q.den

/-- Decimal digit character. -/
def digitChar (d : Nat) : Char := Char.ofNat (48 + d)

/-- Decimal digits of a natural number, most significant first (`0` prints as one digit). -/
def formatNat (n : Nat) : List Char :=
  if n = 0 then ['0'] else (Nat.digits 10 n).reverse.map digitChar

/-- The verb `%d` of `fmt.Sprintf` on an integer. -/
def formatInt : Int → String
  | Int.ofNat n => String.mk (formatNat n)
  | Int.negSucc n => String.mk ('-' :: formatNat (n + 1))

/-! ## The Store interface (`store.go`) -/

/-- The interface `Store`, over a backend state `σ`. Each method takes the state and returns the
Go results together with the new state. -/
structure Store (σ : Type) where
  /-- Increments the counter for a key and returns the new value. -/
  Increment : σ → String → Int → (Int × GoError) × σ
  /-- Returns the current value of a counter. -/
  Get : σ → String → (Int × GoError) × σ
  /-- Returns the current value and remaining time of a counter. -/
  GetWithTime : σ → String → (Int × Int × GoError) × σ
  /-- Adds a timestamp to a list. -/
  AddToList : σ → String → Int → GoError × σ
  /-- Returns the length of a list. -/
  GetListLength : σ → String → (Int × GoError) × σ
  /-- Removes old entries from a list. -/
  TrimList : σ → String → Int → GoError × σ
  /-- Takes a token from a bucket: key, rate, burst, now. -/
  TakeToken : σ → String → ℚ → Int → Int → (Bool × GoError) × σ
  /-- Adds a request to a queue: key, burst, now. -/
  Enqueue : σ → String → Int → Int → (Bool × GoError) × σ
  /-- Processes the queue at a given rate: key, rate, now. -/
  Dequeue : σ → String → ℚ → Int → σ

/-! ## The in-process store (`memory_store.go`) -/

/-- The library type `rate.Limiter` of `golang.org/x/time/rate`, kept abstract: `Λ` is the limiter
state, `Allow` takes the reading of the clock at the call. -/
structure RateLibrary (Λ : Type) where
  /-- The constructor `rate.NewLimiter(r, b)`. -/
  NewLimiter : ℚ → Int → Λ
  /-- The method `Allow`. -/
  Allow : Λ → Int → Bool × Λ

/-- The struct `memoryEntry`. The default value is Go's zero value `memoryEntry{}`. -/
structure memoryEntry (Λ : Type) where
  value : Int := 0
  lastSeen : Int := 0
  timestamps : List Int := []
  limiter : Option Λ := none
  queue : List Int := []

/-- The struct `MemoryStore`: the map `visitors`, together with the process clock as the
sequence of readings that the coming calls of `time.Now()` inside the store will return. -/
structure MemoryStore (Λ : Type) where
  visitors : String → Option (memoryEntry Λ)
  clock : Nat → Int

namespace MemoryStore

variable {Λ : Type}

/-- `NewMemoryStore`: an empty map. The goroutine it starts with `go store.cleanup()` takes its
steps through `cleanup` below. -/
def NewMemoryStore (clock : Nat → Int) : MemoryStore Λ :=
  { visitors := fun _ => none, clock := clock }

/-- One call of `time.Now()` inside the store: the next reading is consumed. -/
def tick (s : MemoryStore Λ) : MemoryStore Λ :=
  { s with clock := fun n => s.clock (n + 1) }

/-- A write through the pointer `v` that `getVisitor` returned for `key`. -/
def put (s : MemoryStore Λ) (key : String) (v : memoryEntry Λ) : MemoryStore Λ :=
  { s with visitors := Function.update s.visitors key (some v) }

/-- The entry of `key` as a value: the zero entry when the key is absent. -/
def entry (s : MemoryStore Λ) (key : String) : memoryEntry Λ :=
  match s.visitors key with
  | some v => v
  | none => {}

/-- `getVisitor`: looks the key up, creates a zero entry when absent, stamps `lastSeen` with
`time.Now()` and returns the entry. -/
def getVisitor (s : MemoryStore Λ) (key : String) : memoryEntry Λ × MemoryStore Λ :=
  let v : memoryEntry Λ := { s.entry key with lastSeen := s.clock 0 }
  (v, (s.put key v).tick)

/-- `Increment`: `time.Since(v.lastSeen)` is the next clock reading minus `lastSeen`. -/
def Increment (s : MemoryStore Λ) (key : String) (window : Int) :
    (Int × GoError) × MemoryStore Λ :=
  let (v, s1) := s.getVisitor key
  let since := s1.clock 0 - v.lastSeen
  let s2 := s1.tick
  let v1 : memoryEntry Λ := if since > window then { v with value := 0 } else v
  let v2 : memoryEntry Λ := { v1 with value := v1.value + 1 }
  ((v2.value, none), s2.put key v2)

/-- `AddToList`. -/
def AddToList (s : MemoryStore Λ) (key : String) (timestamp : Int) : GoError × MemoryStore Λ :=
  let (v, s1) := s.getVisitor key
  (none, s1.put key { v with timestamps := v.timestamps ++ [timestamp] })

/-- `GetListLength`. -/
def GetListLength (s : MemoryStore Λ) (key : String) : (Int × GoError) × MemoryStore Λ :=
  let (v, s1) := s.getVisitor key
  (((v.timestamps.length : Int), none), s1)

/-- `TrimList`: keeps the timestamps `ts >= minTimestamp`, in order. -/
def TrimList (s : MemoryStore Λ) (key : String) (minTimestamp : Int) : GoError × MemoryStore Λ :=
  let (v, s1) := s.getVisitor key
  (none, s1.put key { v with timestamps := v.timestamps.filter (fun ts => ts ≥ minTimestamp) })

/-- `TakeToken`: creates the library limiter on first use, then asks it; `Allow` reads the
clock. -/
def TakeToken (lib : RateLibrary Λ) (s : MemoryStore Λ) (key : String) (r : ℚ) (b : Int)
    (_now : Int) : (Bool × GoError) × MemoryStore Λ :=
  let (v, s1) := s.getVisitor key
  let l : Λ := match v.limiter with
    | some l => l
    | none => lib.NewLimiter r b
  let (ok, l1) := lib.Allow l (s1.clock 0)
  ((ok, none), s1.tick.put key { v with limiter := some l1 })

/-- `Enqueue`. -/
def Enqueue (s : MemoryStore Λ) (key : String) (burst : Int) (now : Int) :
    (Bool × GoError) × MemoryStore Λ :=
  let (v, s1) := s.getVisitor key
  if (v.queue.length : Int) ≥ burst then ((false, none), s1)
  else ((true, none), s1.put key { v with queue := v.queue ++ [now] })

/-- The local `interval` of `Dequeue`, `time.Duration(1e9/r) * time.Nanosecond`. The source
computes it and never uses it. -/
def interval (r : ℚ) : Int := goInt (1000000000 / r) * 1

/-- `Dequeue`. The source tests `time.Since(time.Unix(0, v.queue)) >= 0`; `time.Unix` takes one
`int64`, and the only element the preceding emptiness guard protects is the head, so `v.queue` is
read as `v.queue[0]`. The comparison is against `0`, as written, not against `interval`. -/
def Dequeue (s : MemoryStore Λ) (key : String) (_r : ℚ) (_now : Int) : MemoryStore Λ :=
  let (v, s1) := s.getVisitor key
  match v.queue with
  | [] => s1
  | head :: rest =>
    if s1.clock 0 - head ≥ 0 then s1.tick.put key { v with queue := rest }
    else s1.tick

/-- `Get`. -/
def Get (s : MemoryStore Λ) (key : String) : (Int × GoError) × MemoryStore Λ :=
  let (v, s1) := s.getVisitor key
  ((v.value, none), s1)

/-- `GetWithTime`. The source returns the two results of `Get` where three are declared; the
duration is taken as the zero value. -/
def GetWithTime (s : MemoryStore Λ) (key : String) : (Int × Int × GoError) × MemoryStore Λ :=
  let (r, s1) := s.Get key
  ((r.1, 0, r.2), s1)

/-- The constant `time.Minute`, in nanoseconds. -/
def Minute : Int := 60000000000

/-- One pass of the loop of `cleanup`, after the sleep and under the mutex: every entry whose
`time.Since(v.lastSeen)` exceeds three minutes is deleted. The clock readings of one pass are
taken as one reading. -/
def cleanup (s : MemoryStore Λ) : MemoryStore Λ :=
  { visitors := fun key =>
      match s.visitors key with
      | some v => if s.clock 0 - v.lastSeen > 3 * Minute then none else some v
      | none => none
    clock := fun n => s.clock (n + 1) }

/-- `MemoryStore` as an implementation of `Store`. -/
def store (lib : RateLibrary Λ) : Store (MemoryStore Λ) where
  Increment := Increment
  Get := Get
  GetWithTime := GetWithTime
  AddToList := AddToList
  GetListLength := GetListLength
  TrimList := TrimList
  TakeToken := TakeToken lib
  Enqueue := Enqueue
  Dequeue := Dequeue

end MemoryStore

/-! ## The distributed store (`redis_store.go`)

Only the parts of the Redis keyspace that the token bucket and the queue use are modelled: hashes
holding a bucket, and lists. -/

/-- The hash that `takeTokenScript` keeps under a key: the fields `tokens` and `last_seen`, and
the number of seconds given to the last `EXPIRE` of the key. -/
structure TokenBucket where
  tokens : ℚ
  last_seen : ℚ
  expire : Int
  deriving DecidableEq

/-- The Redis server as the client sees it: whether it can be reached, its hashes and its lists
(an absent list is the empty list). -/
structure RedisServer where
  up : Bool
  hashes : String → Option TokenBucket
  lists : String → List Int

/-- The error `redis.Nil`. -/
def redisNil : GoError := some "redis: nil"

/-- The error of a command that could not reach the server. -/
def redisDown : GoError := some "dial tcp: connection refused"

/-- The Lua script `takeTokenScript` on the content `data` of the hash (`none` when `HMGET` finds
no field): the reply and the content afterwards. -/
def takeTokenScript (rate burst now : ℚ) (data : Option TokenBucket) : Int × Option TokenBucket :=
  let tokens : ℚ := match data with
    | some b => b.tokens
    | none => burst
  let last_seen : ℚ := match data with
    | some b => b.last_seen
    | none => now
  let elapsed := now - last_seen
  let tokens := tokens + elapsed * rate
  let tokens := if tokens > burst then burst else tokens
  if tokens ≥ 1 then
    (1, some { tokens := tokens - 1, last_seen := now, expire := ⌈burst / rate⌉ * 2 })
  else
    (0, data)

namespace RedisStore

/-- `takeTokenScript.Run(...).Result()`: the script runs atomically on the server. -/
def runTakeToken (c : RedisServer) (key : String) (r : ℚ) (b : Int) (now : Int) :
    (Int × GoError) × RedisServer :=
  if c.up then
    let (res, data) := takeTokenScript r (b : ℚ) (now : ℚ) (c.hashes key)
    ((res, none), { c with hashes := Function.update c.hashes key data })
  else ((0, redisDown), c)

/-- `RedisStore.TakeToken`. -/
def TakeToken (c : RedisServer) (key : String) (r : ℚ) (b : Int) (now : Int) :
    (Bool × GoError) × RedisServer :=
  let (res, c1) := runTakeToken c key r b now
  if res.2 ≠ none then ((false, res.2), c1)
  else ((decide (res.1 = 1), none), c1)

/-- The command `RPUSHX`: appends only when the list exists, replies with the length. -/
def RPushX (c : RedisServer) (key : String) (x : Int) : (Int × GoError) × RedisServer :=
  if c.up then
    match c.lists key with
    | [] => ((0, none), c)
    | l@(_ :: _) =>
      (((l.length : Int) + 1, none), { c with lists := Function.update c.lists key (l ++ [x]) })
  else ((0, redisDown), c)

/-- The command `RPUSH`: appends, replies with the length. -/
def RPush (c : RedisServer) (key : String) (x : Int) : (Int × GoError) × RedisServer :=
  if c.up then
    ((((c.lists key).length : Int) + 1, none),
      { c with lists := Function.update c.lists key (c.lists key ++ [x]) })
  else ((0, redisDown), c)

/-- `RedisStore.Enqueue`. -/
def Enqueue (c : RedisServer) (key : String) (burst : Int) (now : Int) :
    (Bool × GoError) × RedisServer :=
  let (res, c1) := RPushX c key now
  if res.2 ≠ none ∧ res.2 ≠ redisNil then ((false, res.2), c1)
  else if res.1 ≥ burst then ((false, none), c1)
  else
    let (_, c2) := RPush c1 key now
    ((true, none), c2)

/-- `RedisStore.Dequeue`: the body is empty. -/
def Dequeue (c : RedisServer) (_key : String) (_rate : ℚ) (_now : Int) : RedisServer := c

end RedisStore

/-! ## The limiters (`limiter.go`) -/

/-- What a handler does with the request: `pass` is `c.Next()`, `reject` is the abort with
`http.StatusTooManyRequests`, `storeError` is the abort with `http.StatusInternalServerError`,
`divideByZero` is the Go run-time error of an integer division by zero. -/
inductive Verdict where
  | pass
  | reject
  | storeError
  | divideByZero
  deriving DecidableEq, Repr

variable {σ : Type}

/-- `FixedWindowLimiter(store, limit, window)` handling a request of client `id` whose
`time.Now().Unix()` is `unixNow`. -/
def FixedWindowLimiter (store : Store σ) (limit : Int) (window : Int) (id : String)
    (unixNow : Int) (s : σ) : Verdict × σ :=
  let d := goInt (Seconds window)
  if d = 0 then (Verdict.divideByZero, s)
  else
    let key := "fw:" ++ id ++ ":" ++ formatInt (Int.tdiv unixNow d)
    let (r, s1) := store.Increment s key window
    if r.2 ≠ none then (Verdict.storeError, s1)
    else if r.1 > limit then (Verdict.reject, s1)
    else (Verdict.pass, s1)

/-- `TokenBucketLimiter(store, rate, burst)` handling a request of client `id` whose
`time.Now().Unix()` is `unixNow`. -/
def TokenBucketLimiter (store : Store σ) (rate : ℚ) (burst : Int) (id : String)
    (unixNow : Int) (s : σ) : Verdict × σ :=
  let key := "tb:" ++ id
  let (r, s1) := store.TakeToken s key rate burst unixNow
  if r.2 ≠ none then (Verdict.storeError, s1)
  else if r.1 = false then (Verdict.reject, s1)
  else (Verdict.pass, s1)

/-- `SlidingWindowLogLimiter(store, limit, window)` handling a request of client `id` whose
`time.Now().UnixNano()` is `now`. The errors of the three store calls are discarded, as in the
source; `window.Nanoseconds()` is the duration itself. -/
def SlidingWindowLogLimiter (store : Store σ) (limit : Int) (window : Int) (id : String)
    (now : Int) (s : σ) : Verdict × σ :=
  let key := "swl:" ++ id
  let (_, s1) := store.TrimList s key (now - window)
  let (_, s2) := store.AddToList s1 key now
  let (r, s3) := store.GetListLength s2 key
  if r.1 > limit then (Verdict.reject, s3)
  else (Verdict.pass, s3)

/-- `SlidingWindowCounterLimiter(store, limit, window)` handling a request of client `id` whose
`time.Now().Unix()` is `unixNow`. The error of `Get` is discarded, as in the source; `percentage`
and `rate` are computed in `float64`, and `window*2` in `int64`. -/
def SlidingWindowCounterLimiter (store : Store σ) (limit : Int) (window : Int) (id : String)
    (unixNow : Int) (s : σ) : Verdict × σ :=
  let d := goInt (Seconds window)
  if d = 0 then (Verdict.divideByZero, s)
  else
    let currentWindow := Int.tdiv unixNow d
    let prevWindow := currentWindow - 1
    let currentKey := "swc:" ++ id ++ ":" ++ formatInt currentWindow
    let prevKey := "swc:" ++ id ++ ":" ++ formatInt prevWindow
    let (p, s1) := store.Get s prevKey
    let (r, s2) := store.Increment s1 currentKey (wrapInt64 (window * 2))
    if r.2 ≠ none then (Verdict.storeError, s2)
    else
      let percentage : ℚ := fdiv (ofInt (Int.tmod unixNow d)) (Seconds window)
      let rate : ℚ := fadd (fmul (ofInt p.1) (fsub 1 percentage)) (ofInt r.1)
      if goInt rate ≥ limit then (Verdict.reject, s2)
      else (Verdict.pass, s2)

/-- `LeakyBucketLimiter(store, rate, burst)` handling a request of client `id` whose
`time.Now().UnixNano()` is `now`. -/
def LeakyBucketLimiter (store : Store σ) (rate : ℚ) (burst : Int) (id : String)
    (now : Int) (s : σ) : Verdict × σ :=
  let key := "lb:" ++ id
  let s1 := store.Dequeue s key rate now
  let (r, s2) := store.Enqueue s1 key burst now
  if r.2 ≠ none then (Verdict.storeError, s2)
  else if r.1 = false then (Verdict.reject, s2)
  else (Verdict.pass, s2)

/-- Runs a handler on a sequence of requests, one after the other, collecting the results. -/
def serve {α β : Type} (h : α → σ → β × σ) : List α → σ → List β × σ
  | [], s => ([], s)
  | r :: rs, s =>
    let (v, s1) := h r s
    let (vs, s2) := serve h rs s1
    (v :: vs, s2)

/-! ## Auxiliary definitions for the statements -/

/-- Two successive readings of the store clock are never more than `window`
apart. -/
def ClockWithin (window : Int) {Λ : Type} (s : MemoryStore Λ) : Prop :=
  ∀ n, s.clock (n + 1) - s.clock n ≤ window

/-- A rate-limiter library whose limiter always allows; it closes concrete instances. -/
def unitLibrary : RateLibrary Unit where
  NewLimiter := fun _ _ => ()
  Allow := fun _ _ => (true, ())

/-- A step of a run of the in-process store: a request, or one pass of the cleanup loop. -/
inductive Step (α : Type) where
  | request (a : α)
  | cleanup

/-- The requests of a run, in order. -/
def requestsOf {α : Type} : List (Step α) → List α
  | [] => []
  | Step.request a :: es => a :: requestsOf es
  | Step.cleanup :: es => requestsOf es

/-- Runs a handler over the in-process store through a sequence of requests and cleanup passes,
collecting the results of the requests. -/
def serveSwept {Λ α β : Type} (h : α → MemoryStore Λ → β × MemoryStore Λ) :
    List (Step α) → MemoryStore Λ → List β × MemoryStore Λ
  | [], s => ([], s)
  | Step.request a :: es, s =>
    ((h a s).1 :: (serveSwept h es (h a s).2).1, (serveSwept h es (h a s).2).2)
  | Step.cleanup :: es, s => serveSwept h es s.cleanup

/-- A cleanup pass run now keeps the entry of `key`: the entry, if present, is idle for at most
three minutes at the next clock reading. -/
def survives {Λ : Type} (s : MemoryStore Λ) (key : String) : Prop :=
  ∀ v, s.visitors key = some v → s.clock 0 - v.lastSeen ≤ 3 * MemoryStore.Minute

/-- Along the run, every cleanup pass keeps the entry of `key`. -/
def keptAlive {Λ α β : Type} (h : α → MemoryStore Λ → β × MemoryStore Λ) (key : String) :
    List (Step α) → MemoryStore Λ → Prop
  | [], _ => True
  | Step.request a :: es, s => keptAlive h key es (h a s).2
  | Step.cleanup :: es, s => survives s key ∧ keptAlive h key es s.cleanup

/-- A store whose backend cannot be reached: every call returns Go zero values and an error, as
`RedisStore` does when its client gets no connection; `Dequeue` has no result. -/
def unavailableStore : Store Unit where
  Increment := fun s _ _ => ((0, redisDown), s)
  Get := fun s _ => ((0, redisDown), s)
  GetWithTime := fun s _ => ((0, 0, redisDown), s)
  AddToList := fun s _ _ => (redisDown, s)
  GetListLength := fun s _ => ((0, redisDown), s)
  TrimList := fun s _ _ => (redisDown, s)
  TakeToken := fun s _ _ _ _ => ((false, redisDown), s)
  Enqueue := fun s _ _ _ => ((false, redisDown), s)
  Dequeue := fun s _ _ _ => s

/-- The in-process store with a `Get` that fails: a store whose counter reads fail while its
increments succeed. -/
def getFailingStore : Store (MemoryStore Unit) :=
  { MemoryStore.store unitLibrary with Get := fun s _ => ((0, redisDown), s) }

/-- A store whose counter calls succeed with fixed counts: `Get` returns `p` and `Increment`
returns `c`; the other calls succeed and change nothing. -/
def fixedCountStore (p c : Int) : Store Unit where
  Increment := fun s _ _ => ((c, none), s)
  Get := fun s _ => ((p, none), s)
  GetWithTime := fun s _ => ((p, 0, none), s)
  AddToList := fun s _ _ => (none, s)
  GetListLength := fun s _ => ((0, none), s)
  TrimList := fun s _ _ => (none, s)
  TakeToken := fun s _ _ _ _ => ((true, none), s)
  Enqueue := fun s _ _ _ => ((true, none), s)
  Dequeue := fun s _ _ _ => s

/-- The store of a deployment that keeps its buckets and queues in Redis: `TakeToken`, `Enqueue`
and `Dequeue` are those of `RedisStore`; the counter and list calls, which the token bucket and
leaky bucket handlers never make, answer with an error. -/
def redisBucketStore : Store RedisServer where
  Increment := fun s _ _ => ((0, redisDown), s)
  Get := fun s _ => ((0, redisDown), s)
  GetWithTime := fun s _ => ((0, 0, redisDown), s)
  AddToList := fun s _ _ => (redisDown, s)
  GetListLength := fun s _ => ((0, redisDown), s)
  TrimList := fun s _ _ => (redisDown, s)
  TakeToken := RedisStore.TakeToken
  Enqueue := RedisStore.Enqueue
  Dequeue := RedisStore.Dequeue

/-- The number of whole tokens in a bucket of capacity `burst` that was emptied and has since
been refilled at `rate` tokens per second for `d` seconds. -/
def wholeTokens (rate : ℚ) (burst d : Nat) : Nat :=
  (⌊min (burst : ℚ) ((d : ℚ) * rate)⌋).toNat

/-- A reachable Redis server that holds no key. -/
def emptyRedis : RedisServer :=
  { up := true, hashes := fun _ => none, lists := fun _ => [] }

/-- A call on the queues of the in-process store. -/
inductive QueueCall where
  | enqueue (key : String) (now : Int)
  | dequeue (key : String) (rate : ℚ) (now : Int)

/-- The store after a queue call, `Enqueue` being called with the burst `burst`. -/
def runQueueCall {Λ : Type} (burst : Int) (s : MemoryStore Λ) : QueueCall → MemoryStore Λ
  | QueueCall.enqueue key now => (s.Enqueue key burst now).2
  | QueueCall.dequeue key rate now => s.Dequeue key rate now

/-- What can happen to the bucket of one key: a run of `takeTokenScript` at some `now`, or the
expiry of the key. -/
inductive BucketEvent where
  | take (now : ℚ)
  | expired

/-- The stored bucket after an event. -/
def bucketStep (rate burst : ℚ) (data : Option TokenBucket) : BucketEvent → Option TokenBucket
  | BucketEvent.take now => (takeTokenScript rate burst now data).2
  | BucketEvent.expired => none

/-- The refilled and capped token count that a call at `now` sees: the burst for an absent
bucket, otherwise the stored tokens plus elapsed time times rate, at most the burst. -/
def refilled (rate burst now : ℚ) : Option TokenBucket → ℚ
  | none => burst
  | some b => min burst (b.tokens + (now - b.last_seen) * rate)

/-- The estimate of the sliding window counter as the handler computes it in `float64`, from the
previous count `p`, the current count `c`, the remainder `r = now % divisor` and the seconds
`secs` of the window: `float64(p)*(1-float64(r)/secs) + float64(c)`. -/
def floatEstimate (p c r : Int) (secs : ℚ) : ℚ :=
  fadd (fmul (ofInt p) (fsub 1 (fdiv (ofInt r) secs))) (ofInt c)

/-- The estimate of the sliding window counter in the words of the specification:
`prevCount × (1 − elapsedFraction) + currCount` with `elapsedFraction = (now mod window) / window`,
the window being `W` seconds. -/
def estimate (prevCount currCount now W : Int) : ℚ :=
  (prevCount : ℚ) * (1 - ((now % W : Int) : ℚ) / (W : ℚ)) + (currCount : ℚ)

/-- The count of the sliding window log in the words of the claim: among the requests
`j ≤ i` of the sequence `ts`, the number of those with `t_j ≥ t_i - window`. -/
def logCount (window : Int) (ts : List Int) (i : Nat) : Nat :=
  ((ts.take (i + 1)).filter (fun u => u ≥ ts.getD i 0 - window)).length

/-- The outcome of calling a Go function at setup: it returns its value, or it fails with a
message. -/
inductive Setup (α : Type) where
  | returned (a : α)
  | failed (msg : String)

/-- The call `FixedWindowLimiter(store, limit, window)` at setup: the body is one `return` of the
handler closure. -/
def setupFixedWindowLimiter {σ : Type} (store : Store σ) (limit window : Int) :
    Setup (String → Int → σ → Verdict × σ) :=
  Setup.returned (FixedWindowLimiter store limit window)

/-- The call `TokenBucketLimiter(store, rate, burst)` at setup. -/
def setupTokenBucketLimiter {σ : Type} (store : Store σ) (rate : ℚ) (burst : Int) :
    Setup (String → Int → σ → Verdict × σ) :=
  Setup.returned (TokenBucketLimiter store rate burst)

/-- The call `SlidingWindowLogLimiter(store, limit, window)` at setup. -/
def setupSlidingWindowLogLimiter {σ : Type} (store : Store σ) (limit window : Int) :
    Setup (String → Int → σ → Verdict × σ) :=
  Setup.returned (SlidingWindowLogLimiter store limit window)

/-- The call `SlidingWindowCounterLimiter(store, limit, window)` at setup. -/
def setupSlidingWindowCounterLimiter {σ : Type} (store : Store σ) (limit window : Int) :
    Setup (String → Int → σ → Verdict × σ) :=
  Setup.returned (SlidingWindowCounterLimiter store limit window)

/-- The call `LeakyBucketLimiter(store, rate, burst)` at setup. -/
def setupLeakyBucketLimiter {σ : Type} (store : Store σ) (rate : ℚ) (burst : Int) :
    Setup (String → Int → σ → Verdict × σ) :=
  Setup.returned (LeakyBucketLimiter store rate burst)

/-- A goroutine inside `MemoryStore.Increment`: its program point and the value that `v.value++`
has loaded. -/
structure IncThread where
  pc : Nat := 0
  loaded : Int := 0
  deriving DecidableEq

/-- One step of a goroutine running `Increment(key, window)` on the shared store. Point 0 is the
call of `getVisitor`, atomic under `s.mu`; the rest runs after the mutex is released, through the
pointer to the entry of the key: point 1 is the test `time.Since(v.lastSeen) > window` with its
write `v.value = 0`, point 2 the load and point 3 the store of `v.value++`. -/
def incStep {Λ : Type} (key : String) (window : Int) (s : MemoryStore Λ) (th : IncThread) :
    MemoryStore Λ × IncThread :=
  match th.pc with
  | 0 => ((s.getVisitor key).2, { th with pc := 1 })
  | 1 =>
    let since := s.clock 0 - (s.entry key).lastSeen
    let s1 := s.tick
    (if since > window then s1.put key { s1.entry key with value := 0 } else s1,
      { th with pc := 2 })
  | 2 => (s, { pc := 3, loaded := (s.entry key).value })
  | 3 => (s.put key { s.entry key with value := th.loaded + 1 }, { th with pc := 4 })
  | _ => (s, th)

/-- Runs the goroutines under a schedule: each element names the goroutine that takes the next
step. -/
def runSchedule {Λ : Type} (key : String) (window : Int) :
    List Nat → MemoryStore Λ × List IncThread → MemoryStore Λ × List IncThread
  | [], c => c
  | i :: rest, (s, ths) =>
    match ths[i]? with
    | none => runSchedule key window rest (s, ths)
    | some th =>
      runSchedule key window rest ((incStep key window s th).1, ths.set i (incStep key window s th).2)

/-! ## Rounding to `float64` -/

section Rounding

theorem roundEven_intCast (n : Int) : roundEven (n : ℚ) = n := by
  simp [roundEven]

theorem roundEven_ge (x : ℚ) (n : Int) (h : (n : ℚ) ≤ x) : n ≤ roundEven x := by
  have hf : n ≤ ⌊x⌋ := Int.le_floor.mpr h
  unfold roundEven
  split_ifs <;> omega

theorem roundEven_le (x : ℚ) (n : Int) (h : x ≤ (n : ℚ)) : roundEven x ≤ n := by
  have hf : ⌊x⌋ ≤ n := by
    have := Int.floor_le x
    exact_mod_cast (Int.floor_le x).trans h |> fun h2 => Int.cast_le.mp h2
  unfold roundEven
  by_cases h1 : x - (⌊x⌋ : ℚ) < 1 / 2
  · rw [if_pos h1]; exact hf
  · have hlt : (⌊x⌋ : ℚ) < x := by linarith
    have hlt2 : (⌊x⌋ : ℚ) < (n : ℚ) := lt_of_lt_of_le hlt h
    have : ⌊x⌋ < n := by exact_mod_cast hlt2
    rw [if_neg h1]
    split_ifs <;> omega

theorem roundEven_nearest (x : ℚ) (n : Int) (h1 : (n : ℚ) - 1 / 2 < x) (h2 : x < (n : ℚ) + 1 / 2) :
    roundEven x = n := by
  unfold roundEven
  by_cases hx : (n : ℚ) ≤ x
  · have hf : ⌊x⌋ = n := by
      rw [Int.floor_eq_iff]
      exact ⟨hx, by linarith⟩
    rw [hf, if_pos (by linarith)]
  · have hf : ⌊x⌋ = n - 1 := by
      rw [Int.floor_eq_iff]
      push_cast
      exact ⟨by linarith, by linarith [not_le.mp hx]⟩
    rw [hf]
    push_cast
    rw [if_neg (by linarith), if_pos (by linarith)]
    ring

theorem float64_zero : float64 0 = 0 := by simp [float64]

theorem log_unique (q : ℚ) (e : Int) (h1 : (2 : ℚ) ^ e ≤ |q|) (h2 : |q| < (2 : ℚ) ^ (e + 1)) :
    Int.log 2 |q| = e := by
  have hpos : 0 < |q| := lt_of_lt_of_le (by positivity) h1
  have a : e ≤ Int.log 2 |q| := (Int.zpow_le_iff_le_log (by norm_num) hpos).mp (by simpa using h1)
  have b : Int.log 2 |q| < e + 1 := (Int.lt_zpow_iff_log_lt (by norm_num) hpos).mp (by simpa using h2)
  omega

theorem float64_of_bounds (q : ℚ) (e : Int) (h1 : (2 : ℚ) ^ e ≤ |q|) (h2 : |q| < (2 : ℚ) ^ (e + 1)) :
    float64 q = (roundEven (q / (2 : ℚ) ^ (e - 52)) : ℚ) * (2 : ℚ) ^ (e - 52) := by
  have hpos : 0 < |q| := lt_of_lt_of_le (by positivity) h1
  have hq : q ≠ 0 := abs_pos.mp hpos
  rw [float64, if_neg hq, log_unique q e h1 h2]

theorem float64_exact (m j : Int) (hm : |m| < 2 ^ 53) :
    float64 ((m : ℚ) * (2 : ℚ) ^ j) = (m : ℚ) * (2 : ℚ) ^ j := by
  by_cases h0 : m = 0
  · simp [h0, float64]
  have hq : (m : ℚ) * (2 : ℚ) ^ j ≠ 0 := by
    have : (m : ℚ) ≠ 0 := by exact_mod_cast h0
    positivity
  have hpos : 0 < |(m : ℚ) * (2 : ℚ) ^ j| := abs_pos.mpr hq
  have hlt : |(m : ℚ) * (2 : ℚ) ^ j| < (2 : ℚ) ^ (53 + j) := by
    rw [abs_mul, abs_of_pos (by positivity : (0 : ℚ) < (2 : ℚ) ^ j), zpow_add₀ (by norm_num)]
    have : |(m : ℚ)| < (2 : ℚ) ^ (53 : ℤ) := by
      have h3 : ((|m| : Int) : ℚ) < ((2 ^ 53 : Int) : ℚ) := by exact_mod_cast hm
      have h4 : (2 : ℚ) ^ (53 : ℤ) = ((2 ^ 53 : Int) : ℚ) := by norm_num
      rw [h4]
      simpa using h3
    exact mul_lt_mul_of_pos_right this (by positivity)
  have he : Int.log 2 |(m : ℚ) * (2 : ℚ) ^ j| < 53 + j :=
    (Int.lt_zpow_iff_log_lt (by norm_num) hpos).mp (by simpa using hlt)
  rw [float64, if_neg hq]
  generalize Int.log 2 |(m : ℚ) * (2 : ℚ) ^ j| = e at he
  obtain ⟨k, hk⟩ : ∃ k : ℕ, j - (e - 52) = (k : ℤ) := ⟨(j - (e - 52)).toNat, by omega⟩
  have hdiv : (m : ℚ) * (2 : ℚ) ^ j / (2 : ℚ) ^ (e - 52) = ((m * 2 ^ k : Int) : ℚ) := by
    rw [mul_div_assoc, ← zpow_sub₀ (by norm_num), hk]
    push_cast
    rw [zpow_natCast]
  rw [hdiv, roundEven_intCast]
  push_cast
  rw [mul_assoc, ← zpow_natCast, ← hk, ← zpow_add₀ (by norm_num)]
  congr 2
  omega

theorem two_pow_split (e : Int) : ((2 ^ 52 : Int) : ℚ) * (2 : ℚ) ^ (e - 52) = (2 : ℚ) ^ e := by
  have h : ((2 ^ 52 : Int) : ℚ) = (2 : ℚ) ^ (52 : ℤ) := by norm_num
  rw [h, ← zpow_add₀ (by norm_num)]
  congr 1
  omega

theorem float64_intCast (n : Int) (h : |n| < 2 ^ 53) : float64 (n : ℚ) = n := by
  have := float64_exact n 0 h
  simpa using this

theorem float64_nonneg (x : ℚ) (h : 0 ≤ x) : 0 ≤ float64 x := by
  unfold float64
  split_ifs
  · exact le_refl _
  · have : (0 : Int) ≤ roundEven (x / (2 : ℚ) ^ (Int.log 2 |x| - 52)) :=
      roundEven_ge _ 0 (by simpa using by positivity)
    have h2 : (0 : ℚ) ≤ (roundEven (x / (2 : ℚ) ^ (Int.log 2 |x| - 52)) : ℚ) := by exact_mod_cast this
    positivity

theorem float64_ge_one (x : ℚ) (h : 1 ≤ x) : 1 ≤ float64 x := by
  have hx : 0 < x := by linarith
  have habs : |x| = x := abs_of_pos hx
  have hq : x ≠ 0 := hx.ne'
  have he : 0 ≤ Int.log 2 |x| :=
    (Int.zpow_le_iff_le_log (by norm_num) (by rw [habs]; exact hx)).mp (by simpa [habs] using h)
  have hle : (2 : ℚ) ^ (Int.log 2 |x|) ≤ x := by
    have := Int.zpow_log_le_self (b := 2) (r := |x|) (by norm_num) (by rw [habs]; exact hx)
    simpa [habs] using this
  rw [float64, if_neg hq]
  generalize Int.log 2 |x| = e at he hle
  have hu : (0 : ℚ) < (2 : ℚ) ^ (e - 52) := by positivity
  have h52 : ((2 ^ 52 : Int) : ℚ) ≤ x / (2 : ℚ) ^ (e - 52) := by
    rw [le_div_iff₀ hu]
    calc ((2 ^ 52 : Int) : ℚ) * (2 : ℚ) ^ (e - 52) = (2 : ℚ) ^ e := two_pow_split e
      _ ≤ x := hle
  have hr := roundEven_ge _ _ h52
  have hr2 : ((2 ^ 52 : Int) : ℚ) ≤ (roundEven (x / (2 : ℚ) ^ (e - 52)) : ℚ) := by exact_mod_cast hr
  calc (1 : ℚ) ≤ (2 : ℚ) ^ e := one_le_zpow₀ (by norm_num) he
    _ = ((2 ^ 52 : Int) : ℚ) * (2 : ℚ) ^ (e - 52) := (two_pow_split e).symm
    _ ≤ (roundEven (x / (2 : ℚ) ^ (e - 52)) : ℚ) * (2 : ℚ) ^ (e - 52) :=
          mul_le_mul_of_nonneg_right hr2 hu.le

theorem float64_le_dyadic (x : ℚ) (m j : Int) (hx : 0 < x) (hxy : x ≤ (m : ℚ) * (2 : ℚ) ^ j)
    (hj : Int.log 2 |x| - 52 ≤ j) : float64 x ≤ (m : ℚ) * (2 : ℚ) ^ j := by
  rw [float64, if_neg hx.ne']
  generalize Int.log 2 |x| = e at hj
  have hu : (0 : ℚ) < (2 : ℚ) ^ (e - 52) := by positivity
  obtain ⟨k, hk⟩ : ∃ k : ℕ, j - (e - 52) = (k : ℤ) := ⟨(j - (e - 52)).toNat, by omega⟩
  have hdiv : (m : ℚ) * (2 : ℚ) ^ j / (2 : ℚ) ^ (e - 52) = ((m * 2 ^ k : Int) : ℚ) := by
    rw [mul_div_assoc, ← zpow_sub₀ (by norm_num), hk]
    push_cast
    rw [zpow_natCast]
  have hle : x / (2 : ℚ) ^ (e - 52) ≤ ((m * 2 ^ k : Int) : ℚ) := by
    rw [← hdiv]
    exact div_le_div_of_nonneg_right hxy hu.le
  have hr := roundEven_le _ _ hle
  have hr2 : (roundEven (x / (2 : ℚ) ^ (e - 52)) : ℚ) ≤ ((m * 2 ^ k : Int) : ℚ) := by
    exact_mod_cast hr
  calc (roundEven (x / (2 : ℚ) ^ (e - 52)) : ℚ) * (2 : ℚ) ^ (e - 52)
      ≤ ((m * 2 ^ k : Int) : ℚ) * (2 : ℚ) ^ (e - 52) := mul_le_mul_of_nonneg_right hr2 hu.le
    _ = (m : ℚ) * (2 : ℚ) ^ j := by
        rw [← hdiv, div_mul_cancel₀ _ hu.ne']

/-- Below one, rounding does not reach one: the bound `1 - 2^-30` is itself a `float64`. -/
theorem float64_below_one (x : ℚ) (h0 : 0 ≤ x) (h1 : x ≤ 1 - 1 / 2 ^ 30) :
    0 ≤ float64 x ∧ float64 x ≤ 1 - 1 / 2 ^ 30 := by
  refine ⟨float64_nonneg x h0, ?_⟩
  rcases h0.eq_or_lt with h | h
  · rw [← h, float64_zero]; norm_num
  · have hy : (1 : ℚ) - 1 / 2 ^ 30 = ((2 ^ 30 - 1 : Int) : ℚ) * (2 : ℚ) ^ (-30 : ℤ) := by
      norm_num
    have hlt : |x| < (2 : ℚ) ^ (0 : ℤ) := by
      rw [abs_of_pos h]
      have : (1 : ℚ) - 1 / 2 ^ 30 < 1 := by norm_num
      simpa using lt_of_le_of_lt h1 this
    have he : Int.log 2 |x| < 0 :=
      (Int.lt_zpow_iff_log_lt (by norm_num) (abs_pos.mpr h.ne')).mp (by simpa using hlt)
    rw [hy]
    exact float64_le_dyadic x _ _ h (by rw [← hy]; exact h1) (by omega)

theorem roundEven_err (x : ℚ) : |(roundEven x : ℚ) - x| ≤ 1 / 2 := by
  have h1 := Int.floor_le x
  have h2 := Int.lt_floor_add_one x
  rw [abs_le]
  unfold roundEven
  split_ifs with a b c
  · constructor <;> linarith
  · push_cast; constructor <;> linarith
  · constructor <;> linarith
  · push_cast; constructor <;> linarith

/-- The relative error of one rounding to `float64` is at most `2^-53`. -/
theorem float64_err (x : ℚ) : |float64 x - x| ≤ |x| / 2 ^ 53 := by
  by_cases hx : x = 0
  · simp [hx, float64]
  have hpos : 0 < |x| := abs_pos.mpr hx
  have hlog : (2 : ℚ) ^ (Int.log 2 |x|) ≤ |x| := Int.zpow_log_le_self (by norm_num) hpos
  rw [float64, if_neg hx]
  generalize Int.log 2 |x| = e at hlog
  have hs : (0 : ℚ) < (2 : ℚ) ^ (e - 52) := by positivity
  have hsplit : (2 : ℚ) ^ (e - 52) = (2 : ℚ) ^ e / 2 ^ 52 := by
    rw [zpow_sub₀ (by norm_num)]; norm_num
  have herr := roundEven_err (x / (2 : ℚ) ^ (e - 52))
  have : (roundEven (x / (2 : ℚ) ^ (e - 52)) : ℚ) * (2 : ℚ) ^ (e - 52) - x =
      ((roundEven (x / (2 : ℚ) ^ (e - 52)) : ℚ) - x / (2 : ℚ) ^ (e - 52)) * (2 : ℚ) ^ (e - 52) := by
    field_simp
  rw [this, abs_mul, abs_of_pos hs]
  calc |(roundEven (x / (2 : ℚ) ^ (e - 52)) : ℚ) - x / (2 : ℚ) ^ (e - 52)| * (2 : ℚ) ^ (e - 52)
      ≤ 1 / 2 * (2 : ℚ) ^ (e - 52) := mul_le_mul_of_nonneg_right herr hs.le
    _ = (2 : ℚ) ^ e / 2 ^ 53 := by rw [hsplit]; ring
    _ ≤ |x| / 2 ^ 53 := div_le_div_of_nonneg_right hlog (by positivity)

theorem float64_err_of_le (x B : ℚ) (h : |x| ≤ B) : |float64 x - x| ≤ B / 2 ^ 53 :=
  (float64_err x).trans (div_le_div_of_nonneg_right h (by positivity))


end Rounding

/-! ## Fixed window over the in-process store -/

section FixedWindow

variable {Λ : Type}

theorem entry_put_same (s : MemoryStore Λ) (key : String) (v : memoryEntry Λ) :
    (s.put key v).entry key = v := by
  simp [MemoryStore.put, MemoryStore.entry]

theorem entry_put_other (s : MemoryStore Λ) (key k : String) (v : memoryEntry Λ) (h : k ≠ key) :
    (s.put key v).entry k = s.entry k := by
  simp [MemoryStore.put, MemoryStore.entry, Function.update_noteq h]

theorem entry_tick (s : MemoryStore Λ) (k : String) : s.tick.entry k = s.entry k := rfl

theorem Increment_within (s : MemoryStore Λ) (key : String) (window : Int)
    (h : ClockWithin window s) :
    (s.Increment key window).1 = ((s.entry key).value + 1, none) ∧
    ((s.Increment key window).2.entry key).value = (s.entry key).value + 1 ∧
    ClockWithin window (s.Increment key window).2 := by
  have h0 : ¬ (s.clock 1 - s.clock 0 > window) := not_lt.mpr (h 0)
  refine ⟨?_, ?_, ?_⟩
  · simp [MemoryStore.Increment, MemoryStore.getVisitor, MemoryStore.tick, MemoryStore.put, h0]
  · simp [MemoryStore.Increment, MemoryStore.getVisitor, MemoryStore.tick, MemoryStore.put, h0,
      MemoryStore.entry]
  · intro n
    simpa [MemoryStore.Increment, MemoryStore.getVisitor, MemoryStore.tick, MemoryStore.put]
      using h (n + 2)

/-- A window of `W` whole seconds: `window.Seconds()` is exactly `W`; every such `W` of a
`time.Duration` is below `2^53`. -/
theorem Seconds_whole (W : Int) (h0 : 0 ≤ W) (h1 : W < 2 ^ 53) :
    Seconds (W * Second) = (W : ℚ) := by
  have ht : Int.tdiv (W * Second) Second = W :=
    Int.mul_tdiv_cancel W (by decide)
  have hm : Int.tmod (W * Second) Second = 0 := Int.mul_tmod_left W Second
  have hW : float64 (W : ℚ) = W := float64_intCast W (by rw [abs_of_nonneg h0]; exact h1)
  simp only [Seconds, fadd, fdiv, ofInt, ht, hm, Int.cast_zero, float64_zero, zero_div,
    add_zero, hW]

/-- A window of `W` whole seconds has the epoch divisor `int64(window.Seconds()) = W`. -/
theorem goInt_Seconds_whole (W : Int) (h0 : 0 ≤ W) (h1 : W < 2 ^ 53) :
    goInt (Seconds (W * Second)) = W := by
  rw [Seconds_whole W h0 h1]
  simp [goInt]

theorem wrapInt64_of_range (x : Int) (h0 : -2 ^ 63 ≤ x) (h1 : x < 2 ^ 63) : wrapInt64 x = x := by
  unfold wrapInt64
  omega

theorem Increment_clockWithin (s : MemoryStore Λ) (key : String) (w w2 : Int)
    (h : ClockWithin w2 s) : ClockWithin w2 (s.Increment key w).2 := by
  intro n
  simpa [MemoryStore.Increment, MemoryStore.getVisitor, MemoryStore.tick, MemoryStore.put]
    using h (n + 2)

/-- One request through `FixedWindowLimiter` over the in-process store. -/
theorem fixedWindow_step (lib : RateLibrary Λ) (limit window : Int) (id : String) (t : Int)
    (s : MemoryStore Λ) (hd : goInt (Seconds window) ≠ 0) (hclock : ClockWithin window s) :
    FixedWindowLimiter (MemoryStore.store lib) limit window id t s =
      (if (s.entry ("fw:" ++ id ++ ":" ++
            formatInt (Int.tdiv t (goInt (Seconds window))))).value + 1 ≤ limit
        then Verdict.pass else Verdict.reject,
       (s.Increment ("fw:" ++ id ++ ":" ++
            formatInt (Int.tdiv t (goInt (Seconds window)))) window).2) := by
  obtain ⟨h1, -, -⟩ := Increment_within s
    ("fw:" ++ id ++ ":" ++ formatInt (Int.tdiv t (goInt (Seconds window)))) window hclock
  simp only [FixedWindowLimiter, hd, if_false, MemoryStore.store]
  rw [show s.Increment ("fw:" ++ id ++ ":" ++
        formatInt (Int.tdiv t (goInt (Seconds window)))) window =
    ((s.Increment ("fw:" ++ id ++ ":" ++
        formatInt (Int.tdiv t (goInt (Seconds window)))) window).1,
     (s.Increment ("fw:" ++ id ++ ":" ++
        formatInt (Int.tdiv t (goInt (Seconds window)))) window).2) from rfl, h1]
  by_cases hl : (s.entry ("fw:" ++ id ++ ":" ++
      formatInt (Int.tdiv t (goInt (Seconds window))))).value + 1 ≤ limit
  · simp [hl, not_lt.mpr hl]
  · simp [hl, not_le.mp hl]

theorem Increment_survives (s : MemoryStore Λ) (key k : String) (w : Int)
    (hs : ∀ v, s.visitors k = some v → s.clock 2 - v.lastSeen ≤ 3 * MemoryStore.Minute)
    (h : s.clock 2 - s.clock 0 ≤ 3 * MemoryStore.Minute) :
    survives (s.Increment key w).2 k := by
  intro v hv
  by_cases hk : k = key
  · subst hk
    simp only [MemoryStore.Increment, MemoryStore.getVisitor, MemoryStore.put, MemoryStore.tick,
      Function.update_same, Option.some.injEq] at hv
    subst hv
    split_ifs <;> simpa [MemoryStore.Increment, MemoryStore.getVisitor, MemoryStore.put,
      MemoryStore.tick] using h
  · simp only [MemoryStore.Increment, MemoryStore.getVisitor, MemoryStore.put, MemoryStore.tick,
      Function.update_noteq hk] at hv
    simpa [MemoryStore.Increment, MemoryStore.getVisitor, MemoryStore.put, MemoryStore.tick]
      using hs v hv

theorem cleanup_entry (s : MemoryStore Λ) (key : String) (h : survives s key) :
    s.cleanup.entry key = s.entry key := by
  unfold survives at h
  cases hv : s.visitors key with
  | none => simp [MemoryStore.cleanup, MemoryStore.entry, hv]
  | some v =>
    have := h v hv
    simp [MemoryStore.cleanup, MemoryStore.entry, hv, not_lt.mpr this]

theorem cleanup_clockWithin (s : MemoryStore Λ) (w : Int) (h : ClockWithin w s) :
    ClockWithin w s.cleanup := by
  intro n
  simpa [MemoryStore.cleanup] using h (n + 1)

theorem fixedWindow_swept_run (lib : RateLibrary Λ) (limit window : Int) (id : String) (e : Int)
    (hd : goInt (Seconds window) ≠ 0) :
    ∀ (events : List (Step Int)) (s : MemoryStore Λ),
      (∀ t ∈ requestsOf events, Int.tdiv t (goInt (Seconds window)) = e) →
      ClockWithin window s →
      keptAlive (FixedWindowLimiter (MemoryStore.store lib) limit window id)
        ("fw:" ++ id ++ ":" ++ formatInt e) events s →
      (serveSwept (FixedWindowLimiter (MemoryStore.store lib) limit window id) events s).1 =
        (List.range (requestsOf events).length).map (fun (i : Nat) =>
          if (s.entry ("fw:" ++ id ++ ":" ++ formatInt e)).value + (i : Int) + 1 ≤ limit
          then Verdict.pass else Verdict.reject) := by
  intro events
  induction events with
  | nil => intro s _ _ _; simp [serveSwept, requestsOf]
  | cons ev es ih =>
    intro s hsame hclock hkept
    cases ev with
    | cleanup =>
      simp only [keptAlive] at hkept
      simp only [serveSwept, requestsOf]
      rw [ih s.cleanup hsame (cleanup_clockWithin s window hclock) hkept.2,
        cleanup_entry s _ hkept.1]
    | request t =>
      simp only [requestsOf] at hsame
      have ht : Int.tdiv t (goInt (Seconds window)) = e := hsame t (List.mem_cons_self _ _)
      obtain ⟨h1, h2, h3⟩ := Increment_within s ("fw:" ++ id ++ ":" ++ formatInt e) window hclock
      have hstep : FixedWindowLimiter (MemoryStore.store lib) limit window id t s =
          (if (s.entry ("fw:" ++ id ++ ":" ++ formatInt e)).value + 1 ≤ limit
            then Verdict.pass else Verdict.reject,
           (s.Increment ("fw:" ++ id ++ ":" ++ formatInt e) window).2) := by
        simp only [FixedWindowLimiter, hd, if_false, ht, MemoryStore.store]
        rw [show s.Increment ("fw:" ++ id ++ ":" ++ formatInt e) window =
          ((s.Increment ("fw:" ++ id ++ ":" ++ formatInt e) window).1,
           (s.Increment ("fw:" ++ id ++ ":" ++ formatInt e) window).2) from rfl, h1]
        by_cases hl : (s.entry ("fw:" ++ id ++ ":" ++ formatInt e)).value + 1 ≤ limit
        · simp [hl, not_lt.mpr hl]
        · simp [hl, not_le.mp hl]
      simp only [keptAlive, hstep] at hkept
      have ih1 := ih (s.Increment ("fw:" ++ id ++ ":" ++ formatInt e) window).2
        (fun u hu => hsame u (List.mem_cons_of_mem _ hu)) h3 hkept
      simp only [serveSwept, requestsOf, hstep, ih1, h2, List.length_cons,
        List.range_succ_eq_map, List.map_cons, List.map_map]
      refine congrArg₂ _ (by simp) ?_
      apply List.map_congr_left
      intro i _
      simp only [Function.comp, Nat.cast_succ]
      ring_nf

/-- C1, the claim as stated fails: limit 1 and a window of one hour. A request at the Unix time 0
is passed; five minutes later a cleanup pass finds the entry idle for more than three minutes and
deletes it; a second request at the Unix time 300, in the same window and with the same key, is
passed as well, although it is request number 2 under the limit 1. -/
theorem C1_counterexample :
    (serveSwept (FixedWindowLimiter (MemoryStore.store unitLibrary) 1 (3600 * Second)
        "10.0.0.1") [Step.request 0, Step.cleanup, Step.request 300]
      (MemoryStore.NewMemoryStore
        (fun n => if n < 2 then (n : Int) else 300000000000 + (n : Int)))).1 =
      [Verdict.pass, Verdict.pass] := by
  have hd : goInt (Seconds (3600 * Second)) = 3600 :=
    goInt_Seconds_whole 3600 (by decide) (by decide)
  simp only [serveSwept, FixedWindowLimiter, hd]
  decide

/-- C1, amended: fixed window over the in-process store. For every limit, window and client,
starting from a store in which the key of the current window has the count 0 (never incremented),
when requests and cleanup passes follow one another, the requests all inside one window (they
all fall in the epoch `e`, so they share one key, and successive clock readings of the store are
at most `window` apart), and no cleanup pass finds the entry of the key idle for more than three
minutes: the request number `i + 1` is passed iff `i + 1 ≤ limit` and is rejected with 429
otherwise. In particular, of `L + 1` requests under the limit `L` the first `L` are passed and
the last one is rejected. -/
theorem C1_fixed_window_counts_to_limit (lib : RateLibrary Λ) (limit window : Int)
    (id : String) (e : Int) (events : List (Step Int)) (s : MemoryStore Λ)
    (hd : goInt (Seconds window) ≠ 0)
    (hsame : ∀ t ∈ requestsOf events, Int.tdiv t (goInt (Seconds window)) = e)
    (hfresh : (s.entry ("fw:" ++ id ++ ":" ++ formatInt e)).value = 0)
    (hclock : ClockWithin window s)
    (hkept : keptAlive (FixedWindowLimiter (MemoryStore.store lib) limit window id)
      ("fw:" ++ id ++ ":" ++ formatInt e) events s) :
    (serveSwept (FixedWindowLimiter (MemoryStore.store lib) limit window id) events s).1 =
        (List.range (requestsOf events).length).map (fun (i : Nat) =>
          if (i : Int) + 1 ≤ limit then Verdict.pass else Verdict.reject) ∧
    (∀ L : Nat, limit = (L : Int) → (requestsOf events).length = L + 1 →
      (serveSwept (FixedWindowLimiter (MemoryStore.store lib) limit window id) events s).1 =
        List.replicate L Verdict.pass ++ [Verdict.reject]) := by
  have hrun := fixedWindow_swept_run lib limit window id e hd events s hsame hclock hkept
  rw [hfresh] at hrun
  simp only [zero_add] at hrun
  refine ⟨hrun, ?_⟩
  intro L hL hlen
  rw [hrun, hlen, List.range_succ, List.map_append]
  congr 1
  · rw [List.eq_replicate_iff]
    refine ⟨by simp, ?_⟩
    intro v hv
    obtain ⟨i, hi, rfl⟩ := List.mem_map.mp hv
    have hi2 : i < L := List.mem_range.mp hi
    have : (i : Int) + 1 ≤ limit := by omega
    simp [this]
  · have : ¬ ((L : Int) + 1 ≤ limit) := by omega
    simp [this]

/-- C1 amended, at a concrete input: limit 2, a one-second window, a request, a cleanup pass and
two more requests in the epoch 0 on a fresh store whose clock advances by one nanosecond per
reading. -/
theorem C1_fixed_window_counts_to_limit_witness :
    (serveSwept (FixedWindowLimiter (MemoryStore.store unitLibrary) 2 (1 * Second) "10.0.0.1")
        [Step.request 0, Step.cleanup, Step.request 0, Step.request 0]
        (MemoryStore.NewMemoryStore (fun n => (n : Int)))).1 =
      [Verdict.pass, Verdict.pass, Verdict.reject] :=
  (C1_fixed_window_counts_to_limit unitLibrary 2 (1 * Second) "10.0.0.1" 0
    [Step.request 0, Step.cleanup, Step.request 0, Step.request 0]
    (MemoryStore.NewMemoryStore (fun n => (n : Int)))
    (by rw [goInt_Seconds_whole 1 (by decide) (by decide)]; decide)
    (by
      intro t ht
      rw [goInt_Seconds_whole 1 (by decide) (by decide)]
      simp [requestsOf] at ht
      subst ht
      decide)
    rfl
    (by intro n; simp [MemoryStore.NewMemoryStore, Second])
    (by
      simp only [keptAlive, and_true]
      rw [fixedWindow_step unitLibrary 2 (1 * Second) "10.0.0.1" 0 _
        (by rw [goInt_Seconds_whole 1 (by decide) (by decide)]; decide)
        (by intro n; simp [MemoryStore.NewMemoryStore, Second])]
      exact Increment_survives _ _ _ _ (by intro v hv; cases hv)
        (by simp [MemoryStore.NewMemoryStore, MemoryStore.Minute]))).2 2 rfl rfl

end FixedWindow

/-! ## Token bucket in the Redis script -/

section TokenBucketScript

theorem serve_append {σ α β : Type} (h : α → σ → β × σ) (l1 l2 : List α) (s : σ) :
    serve h (l1 ++ l2) s =
      ((serve h l1 s).1 ++ (serve h l2 (serve h l1 s).2).1, (serve h l2 (serve h l1 s).2).2) := by
  induction l1 generalizing s with
  | nil => simp [serve]
  | cons a l ih => simp [serve, ih]

theorem script_fresh (rate burst t : ℚ) (hB : 1 ≤ burst) :
    takeTokenScript rate burst t none =
      (1, some { tokens := burst - 1, last_seen := t, expire := ⌈burst / rate⌉ * 2 }) := by
  simp [takeTokenScript, hB]

theorem script_same_instant (rate burst t x : ℚ) (E : Int) (h1 : 1 ≤ x) (h2 : x ≤ burst) :
    takeTokenScript rate burst t (some { tokens := x, last_seen := t, expire := E }) =
      (1, some { tokens := x - 1, last_seen := t, expire := ⌈burst / rate⌉ * 2 }) := by
  simp [takeTokenScript, h1, not_lt.mpr h2]

theorem script_drained (rate burst t : ℚ) (E : Int) (hB : 0 ≤ burst) :
    takeTokenScript rate burst t (some { tokens := 0, last_seen := t, expire := E }) =
      (0, some { tokens := 0, last_seen := t, expire := E }) := by
  simp [takeTokenScript, not_lt.mpr hB]

theorem script_burst_run (rate burst t : ℚ) :
    ∀ j : Nat, (j : ℚ) ≤ burst →
      serve (takeTokenScript rate burst) (List.replicate j t)
          (some { tokens := (j : ℚ), last_seen := t, expire := ⌈burst / rate⌉ * 2 }) =
        (List.replicate j 1,
          some { tokens := 0, last_seen := t, expire := ⌈burst / rate⌉ * 2 }) := by
  intro j
  induction j with
  | zero => intro _; simp [serve]
  | succ j ih =>
    intro hj
    have hj1 : ((j : ℚ)) ≤ burst := by
      have : (j : ℚ) ≤ ((j + 1 : Nat) : ℚ) := by push_cast; linarith
      linarith
    have hstep := script_same_instant rate burst t ((j + 1 : Nat) : ℚ)
      (⌈burst / rate⌉ * 2) (by push_cast; linarith [Nat.cast_nonneg (α := ℚ) j]) hj
    have hsub : (((j + 1 : Nat) : ℚ)) - 1 = (j : ℚ) := by push_cast; ring
    rw [hsub] at hstep
    simp only [List.replicate_succ, serve, hstep, ih hj1]

/-- From an absent bucket, `B + 1` calls at one instant get `B` grants and a refusal, and leave
an empty bucket. -/
theorem script_first_calls (rate : ℚ) (B : Nat) (t : ℚ) (hB : 1 ≤ B) :
    serve (takeTokenScript rate (B : ℚ)) (List.replicate (B + 1) t) none =
      (List.replicate B 1 ++ [0],
        some { tokens := 0, last_seen := t, expire := ⌈(B : ℚ) / rate⌉ * 2 }) := by
  obtain ⟨n, rfl⟩ : ∃ n, B = n + 1 := ⟨B - 1, by omega⟩
  have hB1 : (1 : ℚ) ≤ ((n + 1 : Nat) : ℚ) := by exact_mod_cast hB
  have hB0 : (0 : ℚ) ≤ ((n + 1 : Nat) : ℚ) := by linarith
  have hn : (n : ℚ) ≤ ((n + 1 : Nat) : ℚ) := by push_cast; linarith
  have hfirst := script_fresh rate ((n + 1 : Nat) : ℚ) t hB1
  have hsub : (((n + 1 : Nat) : ℚ)) - 1 = (n : ℚ) := by push_cast; ring
  rw [hsub] at hfirst
  have hrun := script_burst_run rate ((n + 1 : Nat) : ℚ) t n hn
  have hdr := script_drained rate ((n + 1 : Nat) : ℚ) t (⌈((n + 1 : Nat) : ℚ) / rate⌉ * 2) hB0
  rw [show List.replicate (n + 1 + 1) t = t :: (List.replicate n t ++ [t]) by
    rw [List.replicate_succ, List.replicate_succ']]
  simp only [serve, hfirst, serve_append, hrun, hdr, List.replicate_succ, List.cons_append]

/-- One run of the script on a stored bucket: the refilled and capped level decides. -/
theorem script_call (rate burst now : ℚ) (b : TokenBucket) :
    takeTokenScript rate burst now (some b) =
      if 1 ≤ min burst (b.tokens + (now - b.last_seen) * rate) then
        (1, some { tokens := min burst (b.tokens + (now - b.last_seen) * rate) - 1,
                   last_seen := now, expire := ⌈burst / rate⌉ * 2 })
      else (0, some b) := by
  simp only [takeTokenScript]
  by_cases h : b.tokens + (now - b.last_seen) * rate > burst
  · rw [min_eq_left h.le]
    simp only [h, if_true, ge_iff_le]
  · rw [min_eq_right (not_lt.mp h)]
    simp only [h, if_false, ge_iff_le]

/-- Calls at one instant on a bucket last seen at that instant that holds `y` tokens with
`k ≤ y < k + 1`: `k` grants, then a refusal. -/
theorem script_level_run (rate burst t : ℚ) :
    ∀ (k : Nat) (y : ℚ) (E : Int), (k : ℚ) ≤ y → y < (k : ℚ) + 1 → y ≤ burst →
      (serve (takeTokenScript rate burst) (List.replicate (k + 1) t)
          (some { tokens := y, last_seen := t, expire := E })).1 =
        List.replicate k 1 ++ [0] := by
  intro k
  induction k with
  | zero =>
    intro y E h0 h1 hb
    have hm : min burst (y + (t - t) * rate) = y := by
      rw [sub_self, zero_mul, add_zero]; exact min_eq_right hb
    have : ¬ (1 ≤ y) := by push_cast at h1; linarith
    simp only [List.replicate_succ, List.replicate_zero, serve, script_call, hm, this, if_false,
      List.nil_append]
  | succ k ih =>
    intro y E h0 h1 hb
    have hm : min burst (y + (t - t) * rate) = y := by
      rw [sub_self, zero_mul, add_zero]; exact min_eq_right hb
    have hy : 1 ≤ y := by push_cast at h0; linarith [Nat.cast_nonneg (α := ℚ) k]
    have ih1 := ih (y - 1) (⌈burst / rate⌉ * 2) (by push_cast at h0; linarith)
      (by push_cast at h1; linarith) (by linarith)
    rw [List.replicate_succ, serve]
    simp only [script_call, hm, hy, if_true]
    rw [ih1, List.replicate_succ, List.cons_append]

/-- Calls at the instant `t + d` on an empty bucket last seen at `t`: the whole tokens of the
refilled and capped level are granted, the next call is refused. -/
theorem script_refill_run (rate burst t d : ℚ) (E : Int) (hr : 0 < rate) (hd : 0 ≤ d)
    (hB : 0 ≤ burst) :
    (serve (takeTokenScript rate burst)
        (List.replicate ((⌊min burst (d * rate)⌋).toNat + 1) (t + d))
        (some { tokens := 0, last_seen := t, expire := E })).1 =
      List.replicate (⌊min burst (d * rate)⌋).toNat 1 ++ [0] := by
  have hx0 : 0 ≤ min burst (d * rate) := le_min hB (mul_nonneg hd hr.le)
  have hm : (0 : ℚ) + (t + d - t) * rate = d * rate := by
    rw [zero_add, add_sub_cancel_left]
  have hfl : (0 : Int) ≤ ⌊min burst (d * rate)⌋ := Int.floor_nonneg.mpr hx0
  by_cases hx : 1 ≤ min burst (d * rate)
  · obtain ⟨k, hk⟩ : ∃ k : Nat, (⌊min burst (d * rate)⌋).toNat = k + 1 := by
      have : (1 : Int) ≤ ⌊min burst (d * rate)⌋ := Int.le_floor.mpr (by simpa using hx)
      exact ⟨(⌊min burst (d * rate)⌋).toNat - 1, by omega⟩
    have hkq : ((k : ℚ) + 1) = ((⌊min burst (d * rate)⌋ : Int) : ℚ) := by
      have : ((k + 1 : Nat) : Int) = ⌊min burst (d * rate)⌋ := by rw [← hk]; omega
      rw [← this]; push_cast; ring
    have h1 := Int.floor_le (min burst (d * rate))
    have h2 := Int.lt_floor_add_one (min burst (d * rate))
    have hrun := script_level_run rate burst (t + d) k (min burst (d * rate) - 1)
      (⌈burst / rate⌉ * 2) (by linarith) (by linarith)
      (by linarith [min_le_left burst (d * rate)])
    rw [hk, List.replicate_succ, serve]
    simp only [script_call, hm, hx, if_true]
    rw [hrun, List.replicate_succ, List.cons_append]
  · have hz : ⌊min burst (d * rate)⌋ = 0 := by
      rw [Int.floor_eq_zero_iff]; exact ⟨hx0, not_le.mp hx⟩
    rw [hz, Int.toNat_zero, zero_add, List.replicate_succ, List.replicate_zero, serve]
    simp only [script_call, hm, hx, if_false, serve, List.replicate_zero, List.nil_append]

/-- One request through `TokenBucketLimiter` over a store whose `TakeToken` is that of
`RedisStore`, the server being reachable: the script runs on the hash of the key `tb:<id>`. -/
theorem tokenBucket_step (store : Store RedisServer)
    (hstore : store.TakeToken = RedisStore.TakeToken) (rate : ℚ) (burst : Int) (id : String)
    (now : Int) (c : RedisServer) (hup : c.up = true) :
    TokenBucketLimiter store rate burst id now c =
      (if (takeTokenScript rate (burst : ℚ) (now : ℚ) (c.hashes ("tb:" ++ id))).1 = 1
        then Verdict.pass else Verdict.reject,
       { c with
         hashes := Function.update c.hashes ("tb:" ++ id)
                     (takeTokenScript rate (burst : ℚ) (now : ℚ) (c.hashes ("tb:" ++ id))).2 }) := by
  simp only [TokenBucketLimiter, hstore, RedisStore.TakeToken, RedisStore.runTakeToken, hup,
    if_true, ne_eq, not_true_eq_false, if_false, decide_eq_false_iff_not]
  split_ifs <;> rfl

/-- A run of requests through `TokenBucketLimiter` is the run of the script on the hash of the
key. -/
theorem tokenBucket_serve (store : Store RedisServer)
    (hstore : store.TakeToken = RedisStore.TakeToken) (rate : ℚ) (burst : Int) (id : String) :
    ∀ (nows : List Int) (c : RedisServer), c.up = true →
      (serve (TokenBucketLimiter store rate burst id) nows c).1 =
        (serve (takeTokenScript rate (burst : ℚ)) (nows.map (fun (n : Int) => (n : ℚ)))
          (c.hashes ("tb:" ++ id))).1.map
          (fun r => if r = 1 then Verdict.pass else Verdict.reject) ∧
      (serve (TokenBucketLimiter store rate burst id) nows c).2.hashes ("tb:" ++ id) =
        (serve (takeTokenScript rate (burst : ℚ)) (nows.map (fun (n : Int) => (n : ℚ)))
          (c.hashes ("tb:" ++ id))).2 ∧
      (serve (TokenBucketLimiter store rate burst id) nows c).2.up = true := by
  intro nows
  induction nows with
  | nil => intro c hup; exact ⟨rfl, rfl, hup⟩
  | cons t ts ih =>
    intro c hup
    have hstep := tokenBucket_step store hstore rate burst id t c hup
    obtain ⟨h1, h2, h3⟩ := ih
      { c with
        hashes := Function.update c.hashes ("tb:" ++ id)
                    (takeTokenScript rate (burst : ℚ) (t : ℚ) (c.hashes ("tb:" ++ id))).2 } hup
    simp only [Function.update_same] at h1 h2
    simp only [serve, List.map_cons, hstep]
    exact ⟨by rw [h1], h2, h3⟩

/-- The replies of the script to `B + 1` calls at the second `t`, from an absent bucket, and to
the calls at the second `t + d` that follow. -/
theorem script_burst_refill (rate : ℚ) (B d : Nat) (t : Int) (hr : 0 < rate) (hB : 1 ≤ B) :
    (serve (takeTokenScript rate (((B : Nat) : Int) : ℚ))
        ((List.replicate (B + 1) t ++
          List.replicate (wholeTokens rate B d + 1) (t + (d : Int))).map (fun (n : Int) => (n : ℚ)))
        none).1 =
      List.replicate B 1 ++ [0] ++ (List.replicate (wholeTokens rate B d) 1 ++ [0]) := by
  have hcast : (((B : Nat) : Int) : ℚ) = (B : ℚ) := by push_cast; rfl
  have hB0 : (0 : ℚ) ≤ (B : ℚ) := Nat.cast_nonneg B
  have hd0 : (0 : ℚ) ≤ (d : ℚ) := Nat.cast_nonneg d
  rw [hcast, List.map_append, List.map_replicate, List.map_replicate, serve_append,
    script_first_calls rate B (t : ℚ) hB]
  simp only [wholeTokens]
  have := script_refill_run rate (B : ℚ) (t : ℚ) (d : ℚ) (⌈(B : ℚ) / rate⌉ * 2) hr hd0 hB0
  rw [show (((t + (d : Int) : Int)) : ℚ) = (t : ℚ) + (d : ℚ) by push_cast; rfl, this]

/-- The verdicts of `TokenBucketLimiter` for `B + 1` requests at the second `t`, from an absent
bucket, and for the requests at the second `t + d` that follow. -/
theorem tokenBucket_burst_refill (store : Store RedisServer)
    (hstore : store.TakeToken = RedisStore.TakeToken) (rate : ℚ) (B d : Nat) (id : String)
    (t : Int) (c : RedisServer) (hr : 0 < rate) (hB : 1 ≤ B) (hup : c.up = true)
    (habsent : c.hashes ("tb:" ++ id) = none) :
    (serve (TokenBucketLimiter store rate (B : Int) id)
        (List.replicate (B + 1) t ++
          List.replicate (wholeTokens rate B d + 1) (t + (d : Int))) c).1 =
      List.replicate B Verdict.pass ++ [Verdict.reject] ++
        (List.replicate (wholeTokens rate B d) Verdict.pass ++ [Verdict.reject]) := by
  rw [(tokenBucket_serve store hstore rate (B : Int) id _ c hup).1, habsent,
    script_burst_refill rate B d t hr hB]
  simp

/-- C2, the claim as stated fails: the handler passes `time.Now().Unix()`, whole seconds, so for
the rate 2 the instant `t + 1/rate` is never an instant of a call. With the rate 2 and the burst 2,
after two grants and a refusal at the second 10, a further call at the second 10 is refused, and
at the second 11 two calls are granted before one is refused: none or two more are admitted,
never exactly one. -/
theorem C2_counterexample :
    (serve (TokenBucketLimiter redisBucketStore 2 2 "10.0.0.1") [10, 10, 10, 10]
      emptyRedis).1 =
      [Verdict.pass, Verdict.pass, Verdict.reject, Verdict.reject] ∧
    (serve (TokenBucketLimiter redisBucketStore 2 2 "10.0.0.1") [10, 10, 10, 11, 11, 11]
      emptyRedis).1 =
      [Verdict.pass, Verdict.pass, Verdict.reject, Verdict.pass, Verdict.pass,
        Verdict.reject] := by
  have w0 : wholeTokens 2 2 0 = 0 := by simp [wholeTokens]
  have w1 : wholeTokens 2 2 1 = 2 := by
    have : (⌊(2 : ℚ)⌋ : Int) = 2 := Int.floor_ofNat 2
    simp [wholeTokens, this]
  have h0 := tokenBucket_burst_refill redisBucketStore rfl 2 2 0 "10.0.0.1" 10 emptyRedis
    (by norm_num) (by decide) rfl rfl
  have h1 := tokenBucket_burst_refill redisBucketStore rfl 2 2 1 "10.0.0.1" 10 emptyRedis
    (by norm_num) (by decide) rfl rfl
  rw [w0] at h0
  rw [w1] at h1
  exact ⟨h0, h1⟩

/-- C2, amended: token bucket through `TokenBucketLimiter` over a store whose `TakeToken` is that
of `RedisStore` (the script `takeTokenScript`, its numbers taken as exact rationals), the instants
of the calls being Unix seconds. For every rate > 0 and burst `B ≥ 1`, on a reachable server
where the key of the client holds no bucket: of `B + 1` requests at the second `t` the first `B`
are passed and the last is rejected with 429, and the bucket is left empty, last seen at `t`,
with an expiry of `2 * ⌈B / rate⌉` seconds; of the requests that follow at the second `t + d`,
exactly `⌊min(B, d * rate)⌋` are passed and the next one is rejected. When `1/rate` is a whole
number `d` of seconds, exactly one more request is passed at `t + d`. When the bucket has expired
by `t + d`, the number `⌊min(B, d * rate)⌋` is `B`, the number of grants from an absent bucket. -/
theorem C2_token_bucket_burst_then_one (store : Store RedisServer)
    (hstore : store.TakeToken = RedisStore.TakeToken) (rate : ℚ) (B d : Nat) (id : String)
    (t : Int) (c : RedisServer) (hr : 0 < rate) (hB : 1 ≤ B) (hup : c.up = true)
    (habsent : c.hashes ("tb:" ++ id) = none) :
    (serve (TokenBucketLimiter store rate (B : Int) id)
        (List.replicate (B + 1) t ++
          List.replicate (wholeTokens rate B d + 1) (t + (d : Int))) c).1 =
      List.replicate B Verdict.pass ++ [Verdict.reject] ++
        (List.replicate (wholeTokens rate B d) Verdict.pass ++ [Verdict.reject]) ∧
    (serve (TokenBucketLimiter store rate (B : Int) id) (List.replicate (B + 1) t)
        c).2.hashes ("tb:" ++ id) =
      some { tokens := 0, last_seen := (t : ℚ), expire := ⌈(B : ℚ) / rate⌉ * 2 } ∧
    ((d : ℚ) * rate = 1 →
      (serve (TokenBucketLimiter store rate (B : Int) id)
          (List.replicate (B + 1) t ++ [t + (d : Int), t + (d : Int)]) c).1 =
        List.replicate B Verdict.pass ++ [Verdict.reject, Verdict.pass, Verdict.reject]) ∧
    (⌈(B : ℚ) / rate⌉ * 2 ≤ (d : Int) → wholeTokens rate B d = B) := by
  have hmain := tokenBucket_burst_refill store hstore rate B d id t c hr hB hup habsent
  have hB1 : (1 : ℚ) ≤ (B : ℚ) := by exact_mod_cast hB
  refine ⟨hmain, ?_, ?_, ?_⟩
  · rw [(tokenBucket_serve store hstore rate (B : Int) id _ c hup).2.1, habsent,
      List.map_replicate]
    have hcast : (((B : Nat) : Int) : ℚ) = (B : ℚ) := by push_cast; rfl
    rw [hcast, script_first_calls rate B (t : ℚ) hB]
  · intro h1
    have hw : wholeTokens rate B d = 1 := by
      have : (⌊(1 : ℚ)⌋ : Int) = 1 := Int.floor_one
      simp [wholeTokens, h1, min_eq_right hB1, this]
    rw [hw] at hmain
    simpa using hmain
  · intro hexp
    have h1 : (B : ℚ) / rate ≤ (⌈(B : ℚ) / rate⌉ : ℚ) := Int.le_ceil _
    have h2 : ((⌈(B : ℚ) / rate⌉ * 2 : Int) : ℚ) ≤ ((d : Int) : ℚ) := by exact_mod_cast hexp
    push_cast at h2
    have h3 : (B : ℚ) ≤ (d : ℚ) * rate := by
      have h0 : (0 : ℚ) ≤ (B : ℚ) / rate := div_nonneg (Nat.cast_nonneg B) hr.le
      have := (div_le_iff₀ hr).mp (le_trans h1 (by linarith : (⌈(B : ℚ) / rate⌉ : ℚ) ≤ (d : ℚ)))
      exact this
    simp [wholeTokens, min_eq_left h3]

/-- C2 amended, at a concrete input: one token per two seconds, burst 3, on a reachable server
without keys. Four requests at the second 10 are answered pass, pass, pass, reject; of two
requests at the second 12 the first is passed and the second rejected. -/
theorem C2_token_bucket_burst_then_one_witness :
    (serve (TokenBucketLimiter redisBucketStore (1 / 2) ((3 : Nat) : Int) "10.0.0.1")
        (List.replicate (3 + 1) 10 ++ [10 + ((2 : Nat) : Int), 10 + ((2 : Nat) : Int)])
        emptyRedis).1 =
      List.replicate 3 Verdict.pass ++ [Verdict.reject, Verdict.pass, Verdict.reject] :=
  (C2_token_bucket_burst_then_one redisBucketStore rfl (1 / 2) 3 2 "10.0.0.1" 10 emptyRedis
    (by norm_num) (by decide) rfl rfl).2.2.1 (by norm_num)

end TokenBucketScript

/-! ## Sliding window log over the in-process store -/

section SlidingWindowLog

variable {Λ : Type}

/-- One request through `SlidingWindowLogLimiter` over the in-process store: the list of the key
becomes the trimmed list with `now` appended, and the verdict compares its length with the
limit. -/
theorem slidingLog_step (lib : RateLibrary Λ) (limit window : Int) (id : String) (now : Int)
    (s : MemoryStore Λ) :
    (SlidingWindowLogLimiter (MemoryStore.store lib) limit window id now s).1 =
      (if ((((s.entry ("swl:" ++ id)).timestamps.filter (fun ts => ts ≥ now - window)).length
          : Int) + 1 > limit) then Verdict.reject else Verdict.pass) ∧
    ((SlidingWindowLogLimiter (MemoryStore.store lib) limit window id now s).2.entry
        ("swl:" ++ id)).timestamps =
      (s.entry ("swl:" ++ id)).timestamps.filter (fun ts => ts ≥ now - window) ++ [now] := by
  simp only [SlidingWindowLogLimiter, MemoryStore.store, MemoryStore.TrimList,
    MemoryStore.AddToList, MemoryStore.GetListLength, MemoryStore.getVisitor,
    entry_put_same, entry_tick]
  split_ifs <;> simp_all [entry_put_same, entry_tick]
  all_goals omega

theorem slidingLog_run (lib : RateLibrary Λ) (limit window : Int) (id : String) :
    ∀ (nows : List Int) (s : MemoryStore Λ),
      (∀ x ∈ (s.entry ("swl:" ++ id)).timestamps ++ nows, ∀ y ∈ nows, y - x < window) →
      (serve (SlidingWindowLogLimiter (MemoryStore.store lib) limit window id) nows s).1 =
        (List.range nows.length).map (fun (i : Nat) =>
          if (((s.entry ("swl:" ++ id)).timestamps.length : Int) + (i : Int) + 1 > limit)
          then Verdict.reject else Verdict.pass) := by
  intro nows
  induction nows with
  | nil => intro s _; simp [serve]
  | cons t ts ih =>
    intro s hclose
    obtain ⟨h1, h2⟩ := slidingLog_step lib limit window id t s
    have hkeep : (s.entry ("swl:" ++ id)).timestamps.filter (fun ts => ts ≥ t - window) =
        (s.entry ("swl:" ++ id)).timestamps := by
      rw [List.filter_eq_self]
      intro x hx
      have := hclose x (List.mem_append_left _ hx) t (List.mem_cons_self _ _)
      simp only [ge_iff_le, decide_eq_true_eq]
      omega
    rw [hkeep] at h1 h2
    have ih1 := ih (SlidingWindowLogLimiter (MemoryStore.store lib) limit window id t s).2
      (by
        intro x hx y hy
        rw [h2, List.append_assoc] at hx
        exact hclose x (by simpa using hx) y (List.mem_cons_of_mem _ hy))
    rw [h2] at ih1
    rw [serve]
    simp only [ih1, List.length_cons, List.range_succ_eq_map, List.map_cons, List.map_map]
    refine congrArg₂ _ (by simpa using h1) ?_
    apply List.map_congr_left
    intro i _
    simp only [Function.comp, Nat.cast_succ, List.length_append, List.length_singleton,
      Nat.cast_add, Nat.cast_one]
    ring_nf

/-- Of `L + 1` requests served one after the other, without cleanup passes, at non-decreasing
times spanning less than the window, from an empty log: the first `L` are passed and the last
one is rejected. -/
theorem slidingLog_burst (lib : RateLibrary Λ) (L : Nat) (window : Int) (id : String)
    (t : Fin (L + 1) → Int) (s : MemoryStore Λ)
    (hmono : Monotone t) (hspan : t (Fin.last L) - t 0 < window)
    (hempty : (s.entry ("swl:" ++ id)).timestamps = []) :
    (serve (SlidingWindowLogLimiter (MemoryStore.store lib) (L : Int) window id)
        (List.ofFn t) s).1 = List.replicate L Verdict.pass ++ [Verdict.reject] := by
  have hclose : ∀ x ∈ (s.entry ("swl:" ++ id)).timestamps ++ List.ofFn t,
      ∀ y ∈ List.ofFn t, y - x < window := by
    intro x hx y hy
    rw [hempty, List.nil_append, List.mem_ofFn] at hx
    rw [List.mem_ofFn] at hy
    obtain ⟨i, rfl⟩ := hx
    obtain ⟨j, rfl⟩ := hy
    have h1 : t 0 ≤ t i := hmono (Fin.zero_le i)
    have h2 : t j ≤ t (Fin.last L) := hmono (Fin.le_last j)
    omega
  rw [slidingLog_run lib (L : Int) window id (List.ofFn t) s hclose, hempty, List.length_ofFn,
    List.range_succ, List.map_append]
  congr 1
  · rw [List.eq_replicate_iff]
    refine ⟨by simp, ?_⟩
    intro v hv
    obtain ⟨i, hi, rfl⟩ := List.mem_map.mp hv
    have hi2 : i < L := List.mem_range.mp hi
    have : ¬ ((([] : List Int).length : Int) + (i : Int) + 1 > (L : Int)) := by
      simp only [List.length_nil, Nat.cast_zero]; omega
    simp only [this, if_false]
  · simp

/-- Cleanup passes that keep the entry of the log do not show in the verdicts or in the log: a
run with such passes gives what the run of its requests alone gives. -/
theorem slidingLog_swept_eq (lib : RateLibrary Λ) (limit window : Int) (id : String) :
    ∀ (events : List (Step Int)) (s s2 : MemoryStore Λ),
      (s.entry ("swl:" ++ id)).timestamps = (s2.entry ("swl:" ++ id)).timestamps →
      keptAlive (SlidingWindowLogLimiter (MemoryStore.store lib) limit window id)
        ("swl:" ++ id) events s →
      (serveSwept (SlidingWindowLogLimiter (MemoryStore.store lib) limit window id)
          events s).1 =
        (serve (SlidingWindowLogLimiter (MemoryStore.store lib) limit window id)
          (requestsOf events) s2).1 ∧
      ((serveSwept (SlidingWindowLogLimiter (MemoryStore.store lib) limit window id)
          events s).2.entry ("swl:" ++ id)).timestamps =
        ((serve (SlidingWindowLogLimiter (MemoryStore.store lib) limit window id)
          (requestsOf events) s2).2.entry ("swl:" ++ id)).timestamps := by
  intro events
  induction events with
  | nil => intro s s2 h _; exact ⟨rfl, h⟩
  | cons ev es ih =>
    intro s s2 h hkept
    cases ev with
    | cleanup =>
      simp only [keptAlive] at hkept
      simp only [serveSwept, requestsOf]
      exact ih s.cleanup s2 (by rw [cleanup_entry s _ hkept.1]; exact h) hkept.2
    | request t =>
      simp only [keptAlive] at hkept
      obtain ⟨a1, a2⟩ := slidingLog_step lib limit window id t s
      obtain ⟨b1, b2⟩ := slidingLog_step lib limit window id t s2
      obtain ⟨c1, c2⟩ := ih _
        (SlidingWindowLogLimiter (MemoryStore.store lib) limit window id t s2).2
        (by rw [a2, b2, h]) hkept
      simp only [serveSwept, requestsOf, serve]
      exact ⟨by rw [a1, b1, h, c1], c2⟩

/-- After a request through `SlidingWindowLogLimiter` the entry of the log was last seen at the
third clock reading of the request; a cleanup pass run next keeps it when its own reading is at
most three minutes later. -/
theorem slidingLog_survives (lib : RateLibrary Λ) (limit window : Int) (id : String) (now : Int)
    (s : MemoryStore Λ) (h : s.clock 3 - s.clock 2 ≤ 3 * MemoryStore.Minute) :
    survives (SlidingWindowLogLimiter (MemoryStore.store lib) limit window id now s).2
      ("swl:" ++ id) := by
  intro v hv
  simp only [SlidingWindowLogLimiter, MemoryStore.store, MemoryStore.TrimList,
    MemoryStore.AddToList, MemoryStore.GetListLength, MemoryStore.getVisitor] at hv ⊢
  split_ifs at hv ⊢ <;>
  · simp only [MemoryStore.put, MemoryStore.tick, Function.update_same,
      Option.some.injEq] at hv ⊢
    subst hv
    simpa using h

/-- C3, the claim as stated fails: limit 1 and a window of one hour, two requests five minutes
apart from an empty log. Between them a cleanup pass finds the entry of the log idle for more than
three minutes and deletes it, so the second request reads a log of length 1 and is passed, where
the claim has it rejected. -/
theorem C3_counterexample :
    (serveSwept (SlidingWindowLogLimiter (MemoryStore.store unitLibrary) 1 (3600 * Second)
        "10.0.0.1") [Step.request 0, Step.cleanup, Step.request 300000000000]
      (MemoryStore.NewMemoryStore
        (fun n => if n < 3 then (n : Int) else 300000000000 + (n : Int)))).1 =
      [Verdict.pass, Verdict.pass] := by
  decide

/-- C3, amended: sliding window log over the in-process store. For every limit `L ≥ 0` and
window, starting from a store in which the log of the client is empty, when `L + 1` requests
arrive at non-decreasing times `t 0 ≤ ... ≤ t L` whose total span `t L - t 0` is smaller than the
window (so the window is positive), with cleanup passes anywhere among them of which none finds
the entry of the log idle for more than three minutes: the first `L` requests are passed and the
last one is rejected. -/
theorem C3_sliding_log_burst (lib : RateLibrary Λ) (L : Nat) (window : Int) (id : String)
    (t : Fin (L + 1) → Int) (events : List (Step Int)) (s : MemoryStore Λ)
    (hreq : requestsOf events = List.ofFn t)
    (hmono : Monotone t) (hspan : t (Fin.last L) - t 0 < window)
    (hempty : (s.entry ("swl:" ++ id)).timestamps = [])
    (hkept : keptAlive (SlidingWindowLogLimiter (MemoryStore.store lib) (L : Int) window id)
      ("swl:" ++ id) events s) :
    (serveSwept (SlidingWindowLogLimiter (MemoryStore.store lib) (L : Int) window id)
        events s).1 = List.replicate L Verdict.pass ++ [Verdict.reject] := by
  rw [(slidingLog_swept_eq lib (L : Int) window id events s s rfl hkept).1, hreq]
  exact slidingLog_burst lib L window id t s hmono hspan hempty

/-- C3 amended, at a concrete input: limit 2, a window of 10 ns, requests at 100, 103, 109 with a
cleanup pass after the first, on a fresh store whose clock advances by one nanosecond per
reading. -/
theorem C3_sliding_log_burst_witness :
    (serveSwept (SlidingWindowLogLimiter (MemoryStore.store unitLibrary) ((2 : Nat) : Int) 10
        "10.0.0.1") [Step.request 100, Step.cleanup, Step.request 103, Step.request 109]
        (MemoryStore.NewMemoryStore (fun n => (n : Int)))).1 =
      List.replicate 2 Verdict.pass ++ [Verdict.reject] :=
  C3_sliding_log_burst unitLibrary 2 10 "10.0.0.1" ![(100 : Int), 103, 109]
    [Step.request 100, Step.cleanup, Step.request 103, Step.request 109]
    (MemoryStore.NewMemoryStore (fun n => (n : Int)))
    (by simp [requestsOf, List.ofFn_succ])
    (by
      intro i j hij
      fin_cases i <;> fin_cases j <;> simp_all [Matrix.cons_val_zero, Matrix.cons_val_one])
    (by decide)
    rfl
    (by
      simp only [keptAlive, and_true]
      exact slidingLog_survives _ _ _ _ _ _
        (by simp [MemoryStore.NewMemoryStore, MemoryStore.Minute]))

end SlidingWindowLog

/-! ## Keys: `%d` is injective -/

section Keys

theorem digitChar_injOn (a b : Nat) (ha : a < 10) (hb : b < 10)
    (h : digitChar a = digitChar b) : a = b := by
  interval_cases a <;> interval_cases b <;> first | rfl | (exfalso; revert h; decide)

theorem digitChar_ne_minus (a : Nat) (ha : a < 10) : digitChar a ≠ '-' := by
  interval_cases a <;> decide

theorem map_digitChar_injOn : ∀ (l1 l2 : List Nat), (∀ d ∈ l1, d < 10) → (∀ d ∈ l2, d < 10) →
    l1.map digitChar = l2.map digitChar → l1 = l2
  | [], [], _, _, _ => rfl
  | [], _ :: _, _, _, h => by simp at h
  | _ :: _, [], _, _, h => by simp at h
  | a :: l1, b :: l2, h1, h2, h => by
    simp only [List.map_cons, List.cons.injEq] at h
    have hab := digitChar_injOn a b (h1 a (List.mem_cons_self _ _)) (h2 b (List.mem_cons_self _ _))
      h.1
    have := map_digitChar_injOn l1 l2 (fun d hd => h1 d (List.mem_cons_of_mem _ hd))
      (fun d hd => h2 d (List.mem_cons_of_mem _ hd)) h.2
    rw [hab, this]

theorem formatNat_injective (m n : Nat) (h : formatNat m = formatNat n) : m = n := by
  have key : ∀ k : Nat, k ≠ 0 → (Nat.digits 10 k).reverse.map digitChar ≠ ['0'] := by
    intro k hk hkk
    have h0 : (Nat.digits 10 k).reverse = [0] := by
      apply map_digitChar_injOn _ [0] (fun d hd => Nat.digits_lt_base (by norm_num)
        (List.mem_reverse.mp hd)) (by simp) hkk
    have h1 : Nat.digits 10 k = [0] := by
      have := congrArg List.reverse h0
      simpa using this
    have h2 := Nat.getLast_digit_ne_zero 10 hk
    simp [h1] at h2
  unfold formatNat at h
  by_cases hm : m = 0 <;> by_cases hn : n = 0
  · rw [hm, hn]
  · rw [if_pos hm, if_neg hn] at h
    exact absurd h.symm (key n hn)
  · rw [if_neg hm, if_pos hn] at h
    exact absurd h (key m hm)
  · rw [if_neg hm, if_neg hn] at h
    have h3 := map_digitChar_injOn _ _
      (fun d hd => Nat.digits_lt_base (by norm_num) (List.mem_reverse.mp hd))
      (fun d hd => Nat.digits_lt_base (by norm_num) (List.mem_reverse.mp hd)) h
    have h4 : Nat.digits 10 m = Nat.digits 10 n := by
      have := congrArg List.reverse h3
      simpa using this
    exact Nat.digits_inj_iff.mp h4

theorem formatNat_head_ne_minus (n : Nat) (l : List Char) : formatNat n ≠ '-' :: l := by
  unfold formatNat
  by_cases hn : n = 0
  · rw [if_pos hn]
    intro h
    have h1 := (List.cons.inj h).1
    revert h1
    decide
  · rw [if_neg hn]
    intro h
    have hne : (Nat.digits 10 n).reverse ≠ [] := by
      simpa using Nat.digits_ne_nil_iff_ne_zero.mpr hn
    obtain ⟨d, ds, hd⟩ := List.exists_cons_of_ne_nil hne
    rw [hd, List.map_cons, List.cons.injEq] at h
    have hmem : d ∈ (Nat.digits 10 n).reverse := by rw [hd]; exact List.mem_cons_self _ _
    exact digitChar_ne_minus d (Nat.digits_lt_base (by norm_num) (List.mem_reverse.mp hmem)) h.1

/-- The verb `%d` prints different integers differently. -/
theorem formatInt_injective : Function.Injective formatInt := by
  intro a b h
  have hd := congrArg String.data h
  cases a with
  | ofNat m =>
    cases b with
    | ofNat n =>
      simp only [formatInt] at hd
      rw [formatNat_injective m n hd]
    | negSucc n =>
      simp only [formatInt] at hd
      exact absurd hd (formatNat_head_ne_minus m _)
  | negSucc m =>
    cases b with
    | ofNat n =>
      simp only [formatInt] at hd
      exact absurd hd.symm (formatNat_head_ne_minus n _)
    | negSucc n =>
      simp only [formatInt, List.cons.injEq, true_and] at hd
      have := formatNat_injective _ _ hd
      rw [Nat.add_right_cancel this]

/-- Keys built with the same text before the epoch differ when the epochs differ. -/
theorem key_injective (p : String) (a b : Int) (h : p ++ formatInt a = p ++ formatInt b) :
    a = b := by
  apply formatInt_injective
  have h1 := congrArg String.data h
  simp only [String.data_append] at h1
  exact String.ext (List.append_cancel_left h1)

end Keys

/-! ## Sliding window counter over the in-process store -/

section SlidingWindowCounter

variable {Λ : Type}

theorem goInt_intCast (n : Int) : goInt (n : ℚ) = n := by
  simp [goInt]

theorem Get_value (s : MemoryStore Λ) (key : String) :
    (s.Get key).1 = ((s.entry key).value, none) := by
  simp [MemoryStore.Get, MemoryStore.getVisitor]

theorem Get_keeps_values (s : MemoryStore Λ) (key k : String) :
    ((s.Get key).2.entry k).value = (s.entry k).value := by
  by_cases h : k = key
  · subst h
    simp [MemoryStore.Get, MemoryStore.getVisitor, entry_tick, entry_put_same]
  · simp [MemoryStore.Get, MemoryStore.getVisitor, entry_tick, entry_put_other _ _ _ _ h]

theorem Get_clockWithin (s : MemoryStore Λ) (key : String) (w : Int) (h : ClockWithin w s) :
    ClockWithin w (s.Get key).2 := by
  intro n
  simpa [MemoryStore.Get, MemoryStore.getVisitor, MemoryStore.tick, MemoryStore.put]
    using h (n + 1)

theorem Increment_other (s : MemoryStore Λ) (key k : String) (w : Int) (h : k ≠ key) :
    (s.Increment key w).2.entry k = s.entry k := by
  simp [MemoryStore.Increment, MemoryStore.getVisitor, entry_tick, entry_put_other _ _ _ _ h]

/-- With the previous count 0 the `float64` estimate is the current count, exactly. -/
theorem floatEstimate_zero_prev (c r : Int) (secs : ℚ) (hc : |c| < 2 ^ 53) :
    floatEstimate 0 c r secs = (c : ℚ) := by
  simp only [floatEstimate, fadd, fmul, ofInt, Int.cast_zero, float64_zero, zero_mul, zero_add,
    float64_intCast c hc]

/-- One request through `SlidingWindowCounterLimiter` over the in-process store, for a window of
`W` whole seconds with `window*2` inside `int64`. -/
theorem slidingCounter_step (lib : RateLibrary Λ) (limit W : Int) (hW : 1 ≤ W)
    (hmax : W * Second * 2 < 2 ^ 63) (id : String)
    (t : Int) (s : MemoryStore Λ) (hclock : ClockWithin (W * Second * 2) s) :
    SlidingWindowCounterLimiter (MemoryStore.store lib) limit (W * Second) id t s =
      (if goInt (floatEstimate
            (s.entry ("swc:" ++ id ++ ":" ++ formatInt (Int.tdiv t W - 1))).value
            ((s.entry ("swc:" ++ id ++ ":" ++ formatInt (Int.tdiv t W))).value + 1)
            (Int.tmod t W) (W : ℚ))
          ≥ limit then Verdict.reject else Verdict.pass,
        ((s.Get ("swc:" ++ id ++ ":" ++ formatInt (Int.tdiv t W - 1))).2.Increment
          ("swc:" ++ id ++ ":" ++ formatInt (Int.tdiv t W)) (W * Second * 2)).2) := by
  have hW53 : W < 2 ^ 53 := by
    have : W * Second * 2 = W * 2000000000 := by rw [Second]; ring
    omega
  have hwrap : wrapInt64 (W * Second * 2) = W * Second * 2 :=
    wrapInt64_of_range _ (by rw [Second]; omega) hmax
  have hW0 : W ≠ 0 := by omega
  obtain ⟨h1, -, -⟩ := Increment_within
    (s.Get ("swc:" ++ id ++ ":" ++ formatInt (Int.tdiv t W - 1))).2
    ("swc:" ++ id ++ ":" ++ formatInt (Int.tdiv t W)) (W * Second * 2)
    (Get_clockWithin s _ _ hclock)
  rw [Get_keeps_values] at h1
  simp only [SlidingWindowCounterLimiter, Seconds_whole W (by omega) hW53, goInt_intCast,
    hwrap, hW0, if_false, MemoryStore.store, floatEstimate]
  rw [show s.Get ("swc:" ++ id ++ ":" ++ formatInt (Int.tdiv t W - 1)) =
    ((s.Get ("swc:" ++ id ++ ":" ++ formatInt (Int.tdiv t W - 1))).1,
     (s.Get ("swc:" ++ id ++ ":" ++ formatInt (Int.tdiv t W - 1))).2) from rfl, Get_value]
  simp only []
  rw [show (s.Get ("swc:" ++ id ++ ":" ++ formatInt (Int.tdiv t W - 1))).2.Increment
      ("swc:" ++ id ++ ":" ++ formatInt (Int.tdiv t W)) (W * Second * 2) =
    (((s.Get ("swc:" ++ id ++ ":" ++ formatInt (Int.tdiv t W - 1))).2.Increment
      ("swc:" ++ id ++ ":" ++ formatInt (Int.tdiv t W)) (W * Second * 2)).1,
     ((s.Get ("swc:" ++ id ++ ":" ++ formatInt (Int.tdiv t W - 1))).2.Increment
      ("swc:" ++ id ++ ":" ++ formatInt (Int.tdiv t W)) (W * Second * 2)).2) from rfl, h1]
  simp only [ne_eq, not_true_eq_false, if_false]
  split_ifs <;> rfl

theorem slidingCounter_keys_ne (id : String) (e : Int) :
    "swc:" ++ id ++ ":" ++ formatInt (e - 1) ≠ "swc:" ++ id ++ ":" ++ formatInt e := by
  intro h
  have := key_injective _ _ _ h
  omega

theorem slidingCounter_run (lib : RateLibrary Λ) (limit W : Int) (hW : 1 ≤ W)
    (hmax : W * Second * 2 < 2 ^ 63) (id : String) (e : Int) :
    ∀ (nows : List Int) (s : MemoryStore Λ),
      (∀ t ∈ nows, Int.tdiv t W = e) →
      (s.entry ("swc:" ++ id ++ ":" ++ formatInt (e - 1))).value = 0 →
      0 ≤ (s.entry ("swc:" ++ id ++ ":" ++ formatInt e)).value →
      (s.entry ("swc:" ++ id ++ ":" ++ formatInt e)).value + (nows.length : Int) < 2 ^ 53 →
      ClockWithin (W * Second * 2) s →
      (serve (SlidingWindowCounterLimiter (MemoryStore.store lib) limit (W * Second) id)
          nows s).1 =
        (List.range nows.length).map (fun (i : Nat) =>
          if (s.entry ("swc:" ++ id ++ ":" ++ formatInt e)).value + (i : Int) + 1 ≥ limit
          then Verdict.reject else Verdict.pass) := by
  intro nows
  induction nows with
  | nil => intro s _ _ _ _ _; simp [serve]
  | cons t ts ih =>
    intro s hsame hprev hv0 hbound hclock
    have ht : Int.tdiv t W = e := hsame t (List.mem_cons_self _ _)
    have hstep := slidingCounter_step lib limit W hW hmax id t s hclock
    simp only [List.length_cons, Nat.cast_succ] at hbound
    rw [ht, hprev, floatEstimate_zero_prev _ _ _ (by rw [abs_of_nonneg (by omega)]; omega),
      goInt_intCast] at hstep
    obtain ⟨-, h2, h3⟩ := Increment_within
      (s.Get ("swc:" ++ id ++ ":" ++ formatInt (e - 1))).2
      ("swc:" ++ id ++ ":" ++ formatInt e) (W * Second * 2) (Get_clockWithin s _ _ hclock)
    rw [Get_keeps_values] at h2
    have hprev1 : (((s.Get ("swc:" ++ id ++ ":" ++ formatInt (e - 1))).2.Increment
        ("swc:" ++ id ++ ":" ++ formatInt e) (W * Second * 2)).2.entry
        ("swc:" ++ id ++ ":" ++ formatInt (e - 1))).value = 0 := by
      rw [Increment_other _ _ _ _ (slidingCounter_keys_ne id e), Get_keeps_values, hprev]
    have ih1 := ih _ (fun u hu => hsame u (List.mem_cons_of_mem _ hu)) hprev1
      (by rw [h2]; omega) (by rw [h2]; omega) h3
    rw [h2] at ih1
    rw [serve]
    simp only [hstep, ih1, List.length_cons, List.range_succ_eq_map, List.map_cons, List.map_map]
    refine congrArg₂ _ (by simp) ?_
    apply List.map_congr_left
    intro i _
    simp only [Function.comp, Nat.cast_succ]
    ring_nf

/-- Requests inside one window, arriving without a cleanup pass in between, from counters that
are 0 for the current and for the previous window: the request number `i + 1` is passed iff
`i + 1 < limit`. -/
theorem slidingCounter_first_window (lib : RateLibrary Λ) (limit W : Int) (id : String)
    (e : Int) (nows : List Int) (s : MemoryStore Λ)
    (hW : 1 ≤ W) (hmax : W * Second * 2 < 2 ^ 63)
    (hlen : (nows.length : Int) < 2 ^ 53)
    (hsame : ∀ t ∈ nows, Int.tdiv t W = e)
    (hcur : (s.entry ("swc:" ++ id ++ ":" ++ formatInt e)).value = 0)
    (hprev : (s.entry ("swc:" ++ id ++ ":" ++ formatInt (e - 1))).value = 0)
    (hclock : ClockWithin (W * Second * 2) s) :
    (serve (SlidingWindowCounterLimiter (MemoryStore.store lib) limit (W * Second) id)
        nows s).1 =
      (List.range nows.length).map (fun (i : Nat) =>
        if (i : Int) + 1 < limit then Verdict.pass else Verdict.reject) := by
  rw [slidingCounter_run lib limit W hW hmax id e nows s hsame hprev (by rw [hcur])
    (by rw [hcur]; omega) hclock, hcur]
  apply List.map_congr_left
  intro i _
  by_cases h : (i : Int) + 1 < limit
  · have : ¬ (0 + (i : Int) + 1 ≥ limit) := by omega
    simp only [this, h, if_true, if_false]
  · have : 0 + (i : Int) + 1 ≥ limit := by omega
    simp only [this, h, if_true, if_false]

/-- C4, what the code does: the limit 50 and a window of 10 minutes, as in `example/main.go`
(`// 50 requests per 10 minutes`), on a fresh in-process store. Of 50 requests of one client at the
Unix time 0 the first 49 are passed and the 50th is rejected with 429: the estimate counts the
request being decided and the test is `int(rate) >= limit`, where the sibling handlers test
`count > limit`. -/
theorem C4_sliding_counter_rejects_at_limit_code :
    (serve (SlidingWindowCounterLimiter (MemoryStore.store unitLibrary) 50 (600 * Second)
        "10.0.0.1") (List.replicate 50 0)
      (MemoryStore.NewMemoryStore (fun n => (n : Int)))).1 =
      List.replicate 49 Verdict.pass ++ [Verdict.reject] := by
  rw [slidingCounter_first_window unitLibrary 50 600 "10.0.0.1" 0 (List.replicate 50 0)
    (MemoryStore.NewMemoryStore (fun n => (n : Int))) (by decide) (by decide) (by decide)
    (by intro t ht; rw [List.eq_of_mem_replicate ht]; decide) rfl rfl
    (by intro n; simp [MemoryStore.NewMemoryStore, Second])]
  decide

end SlidingWindowCounter

/-! ## Queues of the in-process store and the leaky bucket -/

section Queue

variable {Λ : Type}

theorem Enqueue_result (s : MemoryStore Λ) (key : String) (burst now : Int) :
    (s.Enqueue key burst now).1 = (decide (((s.entry key).queue.length : Int) < burst), none) := by
  by_cases h : ((s.entry key).queue.length : Int) ≥ burst
  · simp [MemoryStore.Enqueue, MemoryStore.getVisitor, h, not_lt.mpr h]
  · simp [MemoryStore.Enqueue, MemoryStore.getVisitor, h, not_le.mp h]

theorem Enqueue_queue (s : MemoryStore Λ) (key : String) (burst now : Int) :
    ((s.Enqueue key burst now).2.entry key).queue =
      if ((s.entry key).queue.length : Int) < burst then (s.entry key).queue ++ [now]
      else (s.entry key).queue := by
  by_cases h : ((s.entry key).queue.length : Int) ≥ burst
  · simp [MemoryStore.Enqueue, MemoryStore.getVisitor, h, not_lt.mpr h, entry_tick,
      entry_put_same]
  · simp [MemoryStore.Enqueue, MemoryStore.getVisitor, h, not_le.mp h, entry_tick,
      entry_put_same]

theorem Enqueue_other (s : MemoryStore Λ) (key k : String) (burst now : Int) (h : k ≠ key) :
    (s.Enqueue key burst now).2.entry k = s.entry k := by
  by_cases hb : ((s.entry key).queue.length : Int) ≥ burst
  · simp [MemoryStore.Enqueue, MemoryStore.getVisitor, hb, entry_tick,
      entry_put_other _ _ _ _ h]
  · simp [MemoryStore.Enqueue, MemoryStore.getVisitor, hb, entry_tick,
      entry_put_other _ _ _ _ h]

theorem Dequeue_queue (s : MemoryStore Λ) (key : String) (r : ℚ) (now : Int) :
    ((s.Dequeue key r now).entry key).queue =
      match (s.entry key).queue with
      | [] => []
      | head :: rest => if s.clock 1 - head ≥ 0 then rest else head :: rest := by
  unfold MemoryStore.Dequeue
  simp only [MemoryStore.getVisitor]
  cases hq : (s.entry key).queue with
  | nil => simp [entry_tick, entry_put_same, hq]
  | cons head rest =>
    by_cases h : s.clock 1 - head ≥ 0
    · simp [MemoryStore.tick, MemoryStore.put, MemoryStore.entry, h]
    · simp [MemoryStore.tick, MemoryStore.put, MemoryStore.entry, h]

theorem Dequeue_other (s : MemoryStore Λ) (key k : String) (r : ℚ) (now : Int) (h : k ≠ key) :
    (s.Dequeue key r now).entry k = s.entry k := by
  unfold MemoryStore.Dequeue
  simp only [MemoryStore.getVisitor]
  cases (s.entry key).queue with
  | nil => simp [entry_tick, entry_put_other _ _ _ _ h]
  | cons head rest =>
    by_cases hc : s.clock 1 - head ≥ 0
    · simp [MemoryStore.tick, MemoryStore.put, MemoryStore.entry, hc, Function.update_noteq h]
    · simp [MemoryStore.tick, MemoryStore.put, MemoryStore.entry, hc, Function.update_noteq h]

theorem Dequeue_length_le (s : MemoryStore Λ) (key k : String) (r : ℚ) (now : Int) :
    ((s.Dequeue key r now).entry k).queue.length ≤ (s.entry k).queue.length := by
  by_cases h : k = key
  · subst h
    rw [Dequeue_queue]
    cases (s.entry k).queue with
    | nil => simp
    | cons head rest =>
      by_cases hc : s.clock 1 - head ≥ 0
      · simp [hc]
      · simp [hc]
  · rw [Dequeue_other _ _ _ _ _ h]

theorem runQueueCall_bounded (B : Int) (key : String) (s : MemoryStore Λ) (c : QueueCall)
    (h : ((s.entry key).queue.length : Int) ≤ B) :
    (((runQueueCall B s c).entry key).queue.length : Int) ≤ B := by
  cases c with
  | enqueue k now =>
    by_cases hk : key = k
    · subst hk
      simp only [runQueueCall]
      rw [Enqueue_queue]
      by_cases hlt : ((s.entry key).queue.length : Int) < B
      · simp only [hlt, if_true, List.length_append, List.length_singleton, Nat.cast_add,
          Nat.cast_one]
        omega
      · simp only [hlt, if_false]
        exact h
    · simp only [runQueueCall]
      rw [Enqueue_other _ _ _ _ _ hk]
      exact h
  | dequeue k rate now =>
    simp only [runQueueCall]
    have := Dequeue_length_le s k key rate now
    omega

/-- C8: `MemoryStore.Enqueue` with the burst `B ≥ 0`. The call is accepted iff the queue of the
key holds fewer than `B` entries; when accepted the queue is the old queue with `now` appended,
when rejected the queue is unchanged; and from an empty queue, after any sequence of `Enqueue`
(with the burst `B`) and `Dequeue` calls, on this key or any other, the queue length is at most
`B`. -/
theorem C8_enqueue_bounded (B : Int) (key : String) (hB : 0 ≤ B) :
    (∀ (s : MemoryStore Λ) (now : Int),
      (s.Enqueue key B now).1 = (decide (((s.entry key).queue.length : Int) < B), none) ∧
      (((s.entry key).queue.length : Int) < B →
        ((s.Enqueue key B now).2.entry key).queue = (s.entry key).queue ++ [now]) ∧
      (¬ ((s.entry key).queue.length : Int) < B →
        ((s.Enqueue key B now).2.entry key).queue = (s.entry key).queue)) ∧
    (∀ (calls : List QueueCall) (s : MemoryStore Λ), (s.entry key).queue = [] →
      (((calls.foldl (runQueueCall B) s).entry key).queue.length : Int) ≤ B) := by
  refine ⟨?_, ?_⟩
  · intro s now
    refine ⟨Enqueue_result s key B now, ?_, ?_⟩
    · intro h
      rw [Enqueue_queue, if_pos h]
    · intro h
      rw [Enqueue_queue, if_neg h]
  · intro calls s hs
    have hgen : ∀ (cs : List QueueCall) (s : MemoryStore Λ),
        ((s.entry key).queue.length : Int) ≤ B →
        (((cs.foldl (runQueueCall B) s).entry key).queue.length : Int) ≤ B := by
      intro cs
      induction cs with
      | nil => intro s h; exact h
      | cons c cs ih =>
        intro s h
        exact ih _ (runQueueCall_bounded B key s c h)
    apply hgen
    rw [hs]
    simpa using hB

/-- C8 at a concrete input: burst 2, three `Enqueue` calls and a `Dequeue` on a fresh store. -/
theorem C8_enqueue_bounded_witness :
    ((([QueueCall.enqueue "lb:10.0.0.1" 5, QueueCall.enqueue "lb:10.0.0.1" 6,
        QueueCall.enqueue "lb:10.0.0.1" 7, QueueCall.dequeue "lb:10.0.0.1" 1 8].foldl
        (runQueueCall 2) (MemoryStore.NewMemoryStore (fun n => (n : Int)) :
          MemoryStore Unit)).entry "lb:10.0.0.1").queue.length : Int) ≤ 2 :=
  (C8_enqueue_bounded 2 "lb:10.0.0.1" (by decide)).2 _ _ rfl

/-- C5, what the code does: rate 1 per second, burst 1, two requests of one client at the same
instant 1000 (the store clock reads 1000 throughout). `Dequeue` of the second request finds
`time.Since(head) = 0 >= 0` and removes the entry of the first, so `Enqueue` accepts again: both
requests are passed and the second is not rejected. -/
theorem C5_leaky_bucket_same_instant_code :
    (serve (LeakyBucketLimiter (MemoryStore.store unitLibrary) 1 1 "10.0.0.1") [1000, 1000]
      (MemoryStore.NewMemoryStore (fun _ => 1000))).1 = [Verdict.pass, Verdict.pass] := by
  decide

/-- C10, what the code does: the queue of the key holds one entry enqueued at 1000, the rate is 1
per second (`interval` is 1e9 ns), and `Dequeue` runs when the clock reads 1002, 2 ns after the
entry was enqueued: the head is removed all the same. -/
theorem C10_dequeue_ignores_interval_code :
    MemoryStore.interval 1 = 1000000000 ∧
    (((MemoryStore.NewMemoryStore (fun n => 1000 + (n : Int)) : MemoryStore Unit).Enqueue
        "lb:10.0.0.1" 1 1000).2.entry "lb:10.0.0.1").queue = [1000] ∧
    ((((MemoryStore.NewMemoryStore (fun n => 1000 + (n : Int)) : MemoryStore Unit).Enqueue
        "lb:10.0.0.1" 1 1000).2.Dequeue "lb:10.0.0.1" 1 1002).entry "lb:10.0.0.1").queue = [] := by
  refine ⟨?_, ?_, ?_⟩
  · simp [MemoryStore.interval, goInt]
  · decide
  · decide

end Queue

/-! ## The queue of the distributed store -/

section RedisQueue

/-- C9, what the code does. With the burst 1, two `RedisStore.Enqueue` calls on an absent list:
the first is accepted, the second is rejected, yet `RPUSHX` has already appended its entry, so the
list holds 2 entries, more than the burst, and the rejected call changed it. With the burst 3 the
second call is accepted and appends two entries (`RPUSHX`, then `RPUSH`). -/
theorem C9_redis_enqueue_code :
    (RedisStore.Enqueue emptyRedis "lb:10.0.0.1" 1 10).1 = (true, none) ∧
    ((RedisStore.Enqueue emptyRedis "lb:10.0.0.1" 1 10).2.lists "lb:10.0.0.1") = [10] ∧
    (RedisStore.Enqueue (RedisStore.Enqueue emptyRedis "lb:10.0.0.1" 1 10).2
      "lb:10.0.0.1" 1 11).1 = (false, none) ∧
    ((RedisStore.Enqueue (RedisStore.Enqueue emptyRedis "lb:10.0.0.1" 1 10).2
      "lb:10.0.0.1" 1 11).2.lists "lb:10.0.0.1") = [10, 11] ∧
    (RedisStore.Enqueue (RedisStore.Enqueue emptyRedis "lb:10.0.0.1" 3 10).2
      "lb:10.0.0.1" 3 11).1 = (true, none) ∧
    ((RedisStore.Enqueue (RedisStore.Enqueue emptyRedis "lb:10.0.0.1" 3 10).2
      "lb:10.0.0.1" 3 11).2.lists "lb:10.0.0.1") = [10, 11, 11] := by
  refine ⟨?_, ?_, ?_, ?_, ?_, ?_⟩ <;> decide

end RedisQueue

/-! ## Store errors in the handlers -/

section StoreErrors

theorem slidingCounter_get_error_passes :
    (getFailingStore.Get (MemoryStore.NewMemoryStore (fun n => (n : Int)))
      "swc:10.0.0.1:6").1.2 ≠ none ∧
    (SlidingWindowCounterLimiter getFailingStore 5 (1 * Second) "10.0.0.1" 7
      (MemoryStore.NewMemoryStore (fun n => (n : Int)))).1 = Verdict.pass := by
  refine ⟨by decide, ?_⟩
  have hI := (Increment_within (MemoryStore.NewMemoryStore (fun n => (n : Int)) : MemoryStore Unit)
    ("swc:" ++ "10.0.0.1" ++ ":" ++ formatInt (Int.tdiv 7 1)) (1 * Second * 2)
    (by intro n; simp [MemoryStore.NewMemoryStore, Second])).1
  have hS : Seconds (1 * Second) = ((1 : Int) : ℚ) := Seconds_whole 1 (by decide) (by decide)
  have hwrap : wrapInt64 (1 * Second * 2) = 1 * Second * 2 := by decide
  have hE := floatEstimate_zero_prev 1 (Int.tmod 7 1) (((1 : Int) : ℚ)) (by decide)
  simp only [floatEstimate] at hE
  simp only [SlidingWindowCounterLimiter, hS, goInt_intCast, hwrap, getFailingStore,
    MemoryStore.store, one_ne_zero, if_false]
  rw [show (MemoryStore.NewMemoryStore (fun n => (n : Int)) : MemoryStore Unit).Increment
      ("swc:" ++ "10.0.0.1" ++ ":" ++ formatInt (Int.tdiv 7 1)) (1 * Second * 2) =
    (((MemoryStore.NewMemoryStore (fun n => (n : Int)) : MemoryStore Unit).Increment
      ("swc:" ++ "10.0.0.1" ++ ":" ++ formatInt (Int.tdiv 7 1)) (1 * Second * 2)).1,
     ((MemoryStore.NewMemoryStore (fun n => (n : Int)) : MemoryStore Unit).Increment
      ("swc:" ++ "10.0.0.1" ++ ":" ++ formatInt (Int.tdiv 7 1)) (1 * Second * 2)).2)
    from rfl, hI]
  have h0 : ∀ k : String,
      ((MemoryStore.NewMemoryStore (fun n => (n : Int)) : MemoryStore Unit).entry k).value = 0 :=
    fun _ => rfl
  simp only [h0, zero_add, ne_eq, not_true_eq_false, if_false, hE, goInt_intCast]
  decide

/-- C6, what the code does. Over a store whose every call fails, `SlidingWindowLogLimiter` (limit
5, window one second) discards the errors of `TrimList`, `AddToList` and `GetListLength`, reads the
count 0 and passes the request, whereas the token bucket and leaky bucket handlers answer 500 on
the failing `TakeToken` and `Enqueue`. Over a store whose `Get` fails and whose `Increment`
succeeds, `SlidingWindowCounterLimiter` discards the error of `Get` and passes the request. -/
theorem C6_sliding_log_ignores_store_errors_code :
    (unavailableStore.TrimList () "swl:10.0.0.1" 0).1 ≠ none ∧
    (unavailableStore.AddToList () "swl:10.0.0.1" 1000000000).1 ≠ none ∧
    (unavailableStore.GetListLength () "swl:10.0.0.1").1.2 ≠ none ∧
    (SlidingWindowLogLimiter unavailableStore 5 (1 * Second) "10.0.0.1" 1000000000 ()).1 =
      Verdict.pass ∧
    (TokenBucketLimiter unavailableStore 2 5 "10.0.0.1" 1 ()).1 = Verdict.storeError ∧
    (LeakyBucketLimiter unavailableStore 2 5 "10.0.0.1" 1000000000 ()).1 =
      Verdict.storeError ∧
    (getFailingStore.Get (MemoryStore.NewMemoryStore (fun n => (n : Int)))
      "swc:10.0.0.1:6").1.2 ≠ none ∧
    (SlidingWindowCounterLimiter getFailingStore 5 (1 * Second) "10.0.0.1" 7
      (MemoryStore.NewMemoryStore (fun n => (n : Int)))).1 = Verdict.pass := by
  refine ⟨?_, ?_, ?_, ?_, ?_, ?_, slidingCounter_get_error_passes⟩ <;> decide

end StoreErrors

/-! ## The token bucket invariant -/

section TokenBucketInvariant

theorem script_reply_cases (rate burst now : ℚ) (data : Option TokenBucket) :
    ((takeTokenScript rate burst now data).1 = 1 ∧
      1 ≤ refilled rate burst now data ∧
      (takeTokenScript rate burst now data).2 =
        some { tokens := refilled rate burst now data - 1, last_seen := now,
               expire := ⌈burst / rate⌉ * 2 }) ∨
    ((takeTokenScript rate burst now data).1 = 0 ∧
      refilled rate burst now data < 1 ∧
      (takeTokenScript rate burst now data).2 = data) := by
  have hcap : ∀ x : ℚ, (if x > burst then burst else x) = min burst x := by
    intro x
    by_cases h : x > burst
    · rw [if_pos h, min_eq_left h.le]
    · rw [if_neg h, min_eq_right (not_lt.mp h)]
  cases data with
  | none =>
    by_cases h : (1 : ℚ) ≤ burst
    · left
      simp [takeTokenScript, refilled, h]
    · right
      simp [takeTokenScript, refilled, h, not_le.mp h]
  | some b =>
    by_cases h : (1 : ℚ) ≤ min burst (b.tokens + (now - b.last_seen) * rate)
    · left
      simp only [takeTokenScript, refilled, hcap, ge_iff_le, h, if_true, and_self]
    · right
      simp only [takeTokenScript, refilled, hcap, ge_iff_le, h, if_false, not_le.mp h, and_self]

theorem refilled_le_burst (rate burst now : ℚ) (data : Option TokenBucket) :
    refilled rate burst now data ≤ burst := by
  cases data with
  | none => exact le_refl _
  | some b => exact min_le_left _ _

theorem bucketStep_bounds (rate burst : ℚ) (data : Option TokenBucket) (ev : BucketEvent)
    (h : ∀ b, data = some b → 0 ≤ b.tokens ∧ b.tokens ≤ burst) :
    ∀ b, bucketStep rate burst data ev = some b → 0 ≤ b.tokens ∧ b.tokens ≤ burst := by
  cases ev with
  | expired => intro b hb; simp [bucketStep] at hb
  | take now =>
    intro b hb
    simp only [bucketStep] at hb
    rcases script_reply_cases rate burst now data with ⟨-, h1, h2⟩ | ⟨-, -, h2⟩
    · rw [h2, Option.some.injEq] at hb
      subst hb
      have := refilled_le_burst rate burst now data
      constructor
      · show 0 ≤ refilled rate burst now data - 1
        linarith
      · show refilled rate burst now data - 1 ≤ burst
        linarith
    · rw [h2] at hb
      exact h b hb

/-- C7: the token bucket invariant of `takeTokenScript`, numbers as exact rationals. For every
rate and burst (in particular rate > 0, burst ≥ 0), after every sequence of `TakeToken` runs with
arbitrary `now` values (the clock may go backwards) and expiries of the key, starting from an
absent bucket, a stored token count satisfies `0 ≤ tokens ≤ burst`; a granted call (reply 1) stores
exactly the refilled and capped value minus 1 together with `now`; a refused call (reply 0) stores
nothing; and the reply is 1 or 0. -/
theorem C7_token_bucket_invariant (rate burst : ℚ) :
    (∀ (events : List BucketEvent) (b : TokenBucket),
      events.foldl (bucketStep rate burst) none = some b → 0 ≤ b.tokens ∧ b.tokens ≤ burst) ∧
    (∀ (data : Option TokenBucket) (now : ℚ),
      ((takeTokenScript rate burst now data).1 = 1 →
        ∃ b, (takeTokenScript rate burst now data).2 = some b ∧
          b.tokens = refilled rate burst now data - 1 ∧ b.last_seen = now) ∧
      ((takeTokenScript rate burst now data).1 = 0 →
        (takeTokenScript rate burst now data).2 = data) ∧
      ((takeTokenScript rate burst now data).1 = 1 ∨
        (takeTokenScript rate burst now data).1 = 0)) := by
  refine ⟨?_, ?_⟩
  · have hgen : ∀ (events : List BucketEvent) (data : Option TokenBucket),
        (∀ b, data = some b → 0 ≤ b.tokens ∧ b.tokens ≤ burst) →
        ∀ b, events.foldl (bucketStep rate burst) data = some b →
          0 ≤ b.tokens ∧ b.tokens ≤ burst := by
      intro events
      induction events with
      | nil => intro data h b hb; exact h b hb
      | cons ev evs ih =>
        intro data h b hb
        exact ih _ (bucketStep_bounds rate burst data ev h) b hb
    intro events b hb
    exact hgen events none (by intro b hb; cases hb) b hb
  · intro data now
    rcases script_reply_cases rate burst now data with ⟨h0, -, h2⟩ | ⟨h0, -, h2⟩
    · refine ⟨fun _ => ⟨_, h2, rfl, rfl⟩, ?_, Or.inl h0⟩
      intro h
      rw [h0] at h
      exact absurd h (by decide)
    · refine ⟨?_, fun _ => h2, Or.inr h0⟩
      intro h
      rw [h0] at h
      exact absurd h (by decide)

end TokenBucketInvariant

/-! ## Counters of the in-process store -/

section Counters

variable {Λ : Type}

/-- C11, what the code does. On a fresh store `Increment` with a window of one second returns 1 and
stamps the key at the reading 0. The next `Increment` of the key runs ten seconds later (readings
10000000002 and 10000000003, more than the window after the key was last touched) and returns 2:
the count does not restart, because `getVisitor` has overwritten `lastSeen` before
`time.Since(v.lastSeen) > window` is tested. -/
theorem C11_increment_after_window_code :
    ((MemoryStore.NewMemoryStore (fun n => if n < 2 then (n : Int) else 10000000000 + (n : Int)) :
        MemoryStore Unit).Increment "fw:10.0.0.1:0" Second).1 = (1, none) ∧
    (((MemoryStore.NewMemoryStore (fun n => if n < 2 then (n : Int) else 10000000000 + (n : Int)) :
        MemoryStore Unit).Increment "fw:10.0.0.1:0" Second).2.entry "fw:10.0.0.1:0").lastSeen
      = 0 ∧
    ((MemoryStore.NewMemoryStore (fun n => if n < 2 then (n : Int) else 10000000000 + (n : Int)) :
        MemoryStore Unit).Increment "fw:10.0.0.1:0" Second).2.clock 0 = 10000000002 ∧
    (((MemoryStore.NewMemoryStore (fun n => if n < 2 then (n : Int) else 10000000000 + (n : Int)) :
        MemoryStore Unit).Increment "fw:10.0.0.1:0" Second).2.Increment
          "fw:10.0.0.1:0" Second).1 = (2, none) := by
  refine ⟨?_, ?_, ?_, ?_⟩ <;> decide

/-- C13: `MemoryStore.TrimList(key, m)`. Afterwards the list of the key is exactly the old list
filtered to the members `ts ≥ m`: no remaining member is older than `m`, every member not older
than `m` is kept with its multiplicity, the remaining members stand in their old order, and the
list of every other key is unchanged. -/
theorem C13_trimList_filters (s : MemoryStore Λ) (key : String) (m : Int) :
    ((s.TrimList key m).2.entry key).timestamps =
      (s.entry key).timestamps.filter (fun ts => ts ≥ m) ∧
    (∀ ts ∈ ((s.TrimList key m).2.entry key).timestamps, m ≤ ts) ∧
    (∀ ts, m ≤ ts → ((s.TrimList key m).2.entry key).timestamps.count ts =
      (s.entry key).timestamps.count ts) ∧
    List.Sublist ((s.TrimList key m).2.entry key).timestamps (s.entry key).timestamps ∧
    (∀ k, k ≠ key → ((s.TrimList key m).2.entry k).timestamps = (s.entry k).timestamps) := by
  have h : ((s.TrimList key m).2.entry key).timestamps =
      (s.entry key).timestamps.filter (fun ts => ts ≥ m) := by
    simp [MemoryStore.TrimList, MemoryStore.getVisitor, entry_put_same]
  refine ⟨h, ?_, ?_, ?_, ?_⟩
  · intro ts hts
    rw [h, List.mem_filter] at hts
    simpa using hts.2
  · intro ts hts
    rw [h, List.count_filter]
    simpa using hts
  · rw [h]
    exact List.filter_sublist _
  · intro k hk
    simp [MemoryStore.TrimList, MemoryStore.getVisitor, entry_tick, entry_put_other _ _ _ _ hk]

theorem Increment_stores_result (s : MemoryStore Λ) (key : String) (w : Int) :
    ((s.Increment key w).2.entry key).value = (s.Increment key w).1.1 := by
  simp only [MemoryStore.Increment, MemoryStore.getVisitor, entry_put_same]

theorem Get_keeps_lists (s : MemoryStore Λ) (key k : String) :
    ((s.Get key).2.entry k).timestamps = (s.entry k).timestamps ∧
    ((s.Get key).2.entry k).queue = (s.entry k).queue ∧
    ((s.Get key).2.entry k).limiter = (s.entry k).limiter := by
  by_cases h : k = key
  · subst h
    simp [MemoryStore.Get, MemoryStore.getVisitor, entry_tick, entry_put_same]
  · simp [MemoryStore.Get, MemoryStore.getVisitor, entry_tick, entry_put_other _ _ _ _ h]

/-- C14, the claim as stated fails: `Increment` of a key on a fresh store returns 1; five minutes
later a cleanup pass finds the entry idle for more than three minutes and deletes it; `Get` of the
key then returns 0, not the value the latest `Increment` returned. -/
theorem C14_counterexample :
    ((MemoryStore.NewMemoryStore
        (fun n => if n < 2 then (n : Int) else 300000000000 + (n : Int)) :
      MemoryStore Unit).Increment "fw:10.0.0.1:0" (3600 * Second)).1 = (1, none) ∧
    (((MemoryStore.NewMemoryStore
        (fun n => if n < 2 then (n : Int) else 300000000000 + (n : Int)) :
      MemoryStore Unit).Increment "fw:10.0.0.1:0" (3600 * Second)).2.cleanup.Get
        "fw:10.0.0.1:0").1 = (0, none) := by
  refine ⟨?_, ?_⟩ <;> decide

/-- C14, amended: `MemoryStore.Get(key)` is a read of the counter. It returns the counter value of
the key with a nil error, which is 0 on a store where the key was never incremented (a fresh
store) and is the value the latest `Increment` of the key returned when `Get` follows it
directly; when a cleanup pass runs between the two, `Get` returns that value if the pass found
the entry idle for at most three minutes and 0 otherwise, a cleanup pass setting to 0 the count of
every key whose entry it finds idle for longer. `Get` leaves the counter value, the timestamp list
and the queue of every key unchanged; a second `Get` right after the first returns the same
result, and after a cleanup pass in between it returns the same result or, the entry found idle
for more than three minutes, 0. -/
theorem C14_get_is_a_read (s : MemoryStore Λ) (key : String) :
    (s.Get key).1 = ((s.entry key).value, none) ∧
    (∀ clock : Nat → Int,
      ((MemoryStore.NewMemoryStore clock : MemoryStore Λ).Get key).1 = (0, none)) ∧
    (∀ w : Int, ((s.Increment key w).2.Get key).1 = ((s.Increment key w).1.1, none)) ∧
    (∀ w : Int, ((s.Increment key w).2.cleanup.Get key).1 =
      (if s.clock 2 - s.clock 0 > 3 * MemoryStore.Minute then 0 else (s.Increment key w).1.1,
        none)) ∧
    (s.cleanup.Get key).1 =
      (match s.visitors key with
        | some v => if s.clock 0 - v.lastSeen > 3 * MemoryStore.Minute then 0 else v.value
        | none => 0, none) ∧
    (∀ k : String, ((s.Get key).2.entry k).value = (s.entry k).value ∧
      ((s.Get key).2.entry k).timestamps = (s.entry k).timestamps ∧
      ((s.Get key).2.entry k).queue = (s.entry k).queue) ∧
    ((s.Get key).2.Get key).1 = (s.Get key).1 ∧
    ((s.Get key).2.cleanup.Get key).1 =
      (if s.clock 1 - s.clock 0 > 3 * MemoryStore.Minute then 0 else (s.Get key).1.1, none) := by
  have hclean : ∀ t : MemoryStore Λ, (t.cleanup.Get key).1 =
      (match t.visitors key with
        | some v => if t.clock 0 - v.lastSeen > 3 * MemoryStore.Minute then 0 else v.value
        | none => 0, none) := by
    intro t
    rw [Get_value]
    cases hv : t.visitors key with
    | none => simp [MemoryStore.cleanup, MemoryStore.entry, hv]
    | some v =>
      by_cases hc : t.clock 0 - v.lastSeen > 3 * MemoryStore.Minute
      · simp [MemoryStore.cleanup, MemoryStore.entry, hv, hc]
      · simp [MemoryStore.cleanup, MemoryStore.entry, hv, hc]
  refine ⟨Get_value s key, ?_, ?_, ?_, hclean s, ?_, ?_, ?_⟩
  · intro clock
    rw [Get_value]
    rfl
  · intro w
    rw [Get_value, Increment_stores_result]
  · intro w
    rw [hclean]
    simp only [MemoryStore.Increment, MemoryStore.getVisitor, MemoryStore.put, MemoryStore.tick,
      Function.update_same]
    split_ifs <;> rfl
  · intro k
    exact ⟨Get_keeps_values s key k, (Get_keeps_lists s key k).1, (Get_keeps_lists s key k).2.1⟩
  · rw [Get_value, Get_value, Get_keeps_values]
  · rw [hclean]
    simp only [MemoryStore.Get, MemoryStore.getVisitor, MemoryStore.put, MemoryStore.tick,
      Function.update_same]

end Counters

/-! ## Fixed window: the next window -/

section FixedWindowRollOver

variable {Λ : Type}

theorem serveSwept_append {α β : Type} (h : α → MemoryStore Λ → β × MemoryStore Λ) (a : α) :
    ∀ (es : List (Step α)) (s : MemoryStore Λ),
      serveSwept h (es ++ [Step.request a]) s =
        ((serveSwept h es s).1 ++ [(h a (serveSwept h es s).2).1],
         (h a (serveSwept h es s).2).2) := by
  intro es
  induction es with
  | nil => intro s; simp [serveSwept]
  | cons e es ih =>
    intro s
    cases e with
    | request b => simp [serveSwept, ih]
    | cleanup => simp [serveSwept, ih]

/-- A cleanup pass leaves a count of 0 at 0, whether it deletes the entry or not. -/
theorem cleanup_value_zero (s : MemoryStore Λ) (k : String) (h : (s.entry k).value = 0) :
    (s.cleanup.entry k).value = 0 := by
  cases hv : s.visitors k with
  | none => simp [MemoryStore.cleanup, MemoryStore.entry, hv]
  | some v =>
    simp only [MemoryStore.entry, hv] at h
    by_cases hc : s.clock 0 - v.lastSeen > 3 * MemoryStore.Minute
    · simp [MemoryStore.cleanup, MemoryStore.entry, hv, hc]
    · simp [MemoryStore.cleanup, MemoryStore.entry, hv, hc, h]

/-- Requests of one epoch and cleanup passes leave a count of 0 under another key at 0. -/
theorem fixedWindow_swept_frame (lib : RateLibrary Λ) (limit window : Int) (id : String)
    (e : Int) (hd : goInt (Seconds window) ≠ 0) (k : String)
    (hk : k ≠ "fw:" ++ id ++ ":" ++ formatInt e) :
    ∀ (events : List (Step Int)) (s : MemoryStore Λ),
      (∀ t ∈ requestsOf events, Int.tdiv t (goInt (Seconds window)) = e) →
      ClockWithin window s →
      (s.entry k).value = 0 →
      ClockWithin window
        (serveSwept (FixedWindowLimiter (MemoryStore.store lib) limit window id) events s).2 ∧
      ((serveSwept (FixedWindowLimiter (MemoryStore.store lib) limit window id)
        events s).2.entry k).value = 0 := by
  intro events
  induction events with
  | nil => intro s _ hc hz; exact ⟨hc, hz⟩
  | cons ev es ih =>
    intro s hsame hclock hz
    cases ev with
    | cleanup =>
      simp only [serveSwept]
      exact ih s.cleanup hsame (cleanup_clockWithin s window hclock) (cleanup_value_zero s k hz)
    | request t =>
      simp only [requestsOf] at hsame
      have ht : Int.tdiv t (goInt (Seconds window)) = e := hsame t (List.mem_cons_self _ _)
      have hstep := fixedWindow_step lib limit window id t s hd hclock
      rw [ht] at hstep
      simp only [serveSwept, hstep]
      exact ih (s.Increment ("fw:" ++ id ++ ":" ++ formatInt e) window).2
        (fun u hu => hsame u (List.mem_cons_of_mem _ hu))
        (Increment_clockWithin s _ window window hclock)
        (by rw [Increment_other _ _ _ _ hk]; exact hz)

/-- Requests of one epoch, with cleanup passes that keep the entry of its key, count up the key. -/
theorem fixedWindow_swept_count (lib : RateLibrary Λ) (limit window : Int) (id : String)
    (e : Int) (hd : goInt (Seconds window) ≠ 0) :
    ∀ (events : List (Step Int)) (s : MemoryStore Λ),
      (∀ t ∈ requestsOf events, Int.tdiv t (goInt (Seconds window)) = e) →
      ClockWithin window s →
      keptAlive (FixedWindowLimiter (MemoryStore.store lib) limit window id)
        ("fw:" ++ id ++ ":" ++ formatInt e) events s →
      ((serveSwept (FixedWindowLimiter (MemoryStore.store lib) limit window id)
        events s).2.entry ("fw:" ++ id ++ ":" ++ formatInt e)).value =
        (s.entry ("fw:" ++ id ++ ":" ++ formatInt e)).value +
          ((requestsOf events).length : Int) := by
  intro events
  induction events with
  | nil => intro s _ _ _; simp [serveSwept, requestsOf]
  | cons ev es ih =>
    intro s hsame hclock hkept
    cases ev with
    | cleanup =>
      simp only [keptAlive] at hkept
      simp only [serveSwept, requestsOf]
      rw [ih s.cleanup hsame (cleanup_clockWithin s window hclock) hkept.2,
        cleanup_entry s _ hkept.1]
    | request t =>
      simp only [requestsOf] at hsame
      have ht : Int.tdiv t (goInt (Seconds window)) = e := hsame t (List.mem_cons_self _ _)
      have hstep := fixedWindow_step lib limit window id t s hd hclock
      rw [ht] at hstep
      obtain ⟨-, h2, h3⟩ := Increment_within s ("fw:" ++ id ++ ":" ++ formatInt e) window hclock
      simp only [keptAlive, hstep] at hkept
      simp only [serveSwept, requestsOf, hstep, List.length_cons, Nat.cast_succ]
      rw [ih _ (fun u hu => hsame u (List.mem_cons_of_mem _ hu)) h3 hkept, h2]
      ring

theorem tdiv_add_self (t W : Int) (ht : 0 ≤ t) (hW : 1 ≤ W) :
    Int.tdiv (t + W) W = Int.tdiv t W + 1 := by
  rw [Int.tdiv_eq_ediv (by omega) (by omega), Int.tdiv_eq_ediv ht (by omega),
    Int.add_ediv_of_dvd_right (dvd_refl W), Int.ediv_self (by omega)]

/-- C12: the fixed window rolls over. For every window of `W ≥ 1` whole seconds (a
`time.Duration`, so `W` seconds fit in `int64` nanoseconds), limit `L ≥ 1`, client and Unix time
`t ≥ 0`: the epoch of `t + W` is the epoch of `t` plus 1 and the key used at `t + W` differs from
the key used at `t`. So, over the in-process store, from a state in which the key of the new window
has the count 0, after any run of requests in the window of `t` and cleanup passes, a request at
`t + W` is passed, and it is counted under the new key, whose count becomes 1. When moreover no
cleanup pass deleted the entry of the old key, the requests of the old window were answered from
the old key (request number `i + 1` passed iff the old count plus `i + 1` is at most `L`, so a
window with more than `L` requests was exhausted and its last requests rejected), and the old key
holds all of them and not the request at `t + W`. -/
theorem C12_fixed_window_rolls_over (lib : RateLibrary Λ) (limit W : Int) (id : String)
    (t : Int) (events : List (Step Int)) (s : MemoryStore Λ)
    (hW : 1 ≤ W) (hmax : W * Second < 2 ^ 63) (hL : 1 ≤ limit) (ht : 0 ≤ t)
    (hsame : ∀ u ∈ requestsOf events, Int.tdiv u W = Int.tdiv t W)
    (hfresh : (s.entry ("fw:" ++ id ++ ":" ++ formatInt (Int.tdiv t W + 1))).value = 0)
    (hclock : ClockWithin (W * Second) s) :
    Int.tdiv (t + W) W = Int.tdiv t W + 1 ∧
    "fw:" ++ id ++ ":" ++ formatInt (Int.tdiv (t + W) W) ≠
      "fw:" ++ id ++ ":" ++ formatInt (Int.tdiv t W) ∧
    (serveSwept (FixedWindowLimiter (MemoryStore.store lib) limit (W * Second) id)
        (events ++ [Step.request (t + W)]) s).1 =
      (serveSwept (FixedWindowLimiter (MemoryStore.store lib) limit (W * Second) id)
        events s).1 ++ [Verdict.pass] ∧
    ((serveSwept (FixedWindowLimiter (MemoryStore.store lib) limit (W * Second) id)
        (events ++ [Step.request (t + W)]) s).2.entry
      ("fw:" ++ id ++ ":" ++ formatInt (Int.tdiv (t + W) W))).value = 1 ∧
    (keptAlive (FixedWindowLimiter (MemoryStore.store lib) limit (W * Second) id)
        ("fw:" ++ id ++ ":" ++ formatInt (Int.tdiv t W)) events s →
      (serveSwept (FixedWindowLimiter (MemoryStore.store lib) limit (W * Second) id)
          events s).1 =
        (List.range (requestsOf events).length).map (fun (i : Nat) =>
          if (s.entry ("fw:" ++ id ++ ":" ++ formatInt (Int.tdiv t W))).value + (i : Int) + 1
              ≤ limit
          then Verdict.pass else Verdict.reject) ∧
      ((serveSwept (FixedWindowLimiter (MemoryStore.store lib) limit (W * Second) id)
          (events ++ [Step.request (t + W)]) s).2.entry
        ("fw:" ++ id ++ ":" ++ formatInt (Int.tdiv t W))).value =
        (s.entry ("fw:" ++ id ++ ":" ++ formatInt (Int.tdiv t W))).value +
          ((requestsOf events).length : Int)) := by
  have hW53 : W < 2 ^ 53 := by
    have : W * Second = W * 1000000000 := by rw [Second]
    omega
  have hdW : goInt (Seconds (W * Second)) = W := goInt_Seconds_whole W (by omega) hW53
  have hepoch := tdiv_add_self t W ht hW
  have hne : "fw:" ++ id ++ ":" ++ formatInt (Int.tdiv t W + 1) ≠
      "fw:" ++ id ++ ":" ++ formatInt (Int.tdiv t W) := by
    intro h
    have := key_injective _ _ _ h
    omega
  have hd : goInt (Seconds (W * Second)) ≠ 0 := by rw [hdW]; omega
  obtain ⟨hc, hz⟩ := fixedWindow_swept_frame lib limit (W * Second) id (Int.tdiv t W) hd
    _ hne events s (by rw [hdW]; exact hsame) hclock hfresh
  have hstep := fixedWindow_step lib limit (W * Second) id (t + W) _ hd hc
  rw [hdW, hepoch] at hstep
  obtain ⟨-, h2, -⟩ := Increment_within
    (serveSwept (FixedWindowLimiter (MemoryStore.store lib) limit (W * Second) id) events s).2
    ("fw:" ++ id ++ ":" ++ formatInt (Int.tdiv t W + 1)) (W * Second) hc
  rw [serveSwept_append, hepoch, hstep]
  refine ⟨rfl, hne, ?_, ?_, ?_⟩
  · simp only [hz]
    rw [if_pos (by omega)]
  · simp only []
    rw [h2, hz]
    rfl
  · intro hkept
    refine ⟨?_, ?_⟩
    · exact fixedWindow_swept_run lib limit (W * Second) id (Int.tdiv t W) hd events s
        (by rw [hdW]; exact hsame) hclock hkept
    · simp only []
      rw [Increment_other _ _ _ _ (Ne.symm hne)]
      exact fixedWindow_swept_count lib limit (W * Second) id (Int.tdiv t W) hd events s
        (by rw [hdW]; exact hsame) hclock hkept

/-- C12 at a concrete input: limit 1, a window of one second, on a fresh store three requests at
the Unix time 0 with a cleanup pass among them (the window is exhausted: pass, reject, reject),
then a request at the Unix time 1, which is passed and counted under the key of the epoch 1. -/
theorem C12_fixed_window_rolls_over_witness :
    (serveSwept (FixedWindowLimiter (MemoryStore.store unitLibrary) 1 (1 * Second) "10.0.0.1")
        ([Step.request 0, Step.cleanup, Step.request 0, Step.request 0] ++
          [Step.request (0 + 1)])
        (MemoryStore.NewMemoryStore (fun n => (n : Int)))).1 =
      (serveSwept (FixedWindowLimiter (MemoryStore.store unitLibrary) 1 (1 * Second) "10.0.0.1")
        [Step.request 0, Step.cleanup, Step.request 0, Step.request 0]
        (MemoryStore.NewMemoryStore (fun n => (n : Int)))).1 ++ [Verdict.pass] ∧
    (serveSwept (FixedWindowLimiter (MemoryStore.store unitLibrary) 1 (1 * Second) "10.0.0.1")
        [Step.request 0, Step.cleanup, Step.request 0, Step.request 0]
        (MemoryStore.NewMemoryStore (fun n => (n : Int)))).1 =
      [Verdict.pass, Verdict.reject, Verdict.reject] :=
  have h := C12_fixed_window_rolls_over unitLibrary 1 1 "10.0.0.1" 0
    [Step.request 0, Step.cleanup, Step.request 0, Step.request 0]
    (MemoryStore.NewMemoryStore (fun n => (n : Int)))
    (by decide) (by decide) (by decide) (by decide)
    (by intro u hu; simp [requestsOf] at hu; subst hu; decide)
    rfl
    (by intro n; simp [MemoryStore.NewMemoryStore, Second])
  ⟨h.2.2.1, (h.2.2.2.2 (by
      simp only [keptAlive, and_true]
      rw [fixedWindow_step unitLibrary 1 (1 * Second) "10.0.0.1" 0 _
        (by rw [goInt_Seconds_whole 1 (by decide) (by decide)]; decide)
        (by intro n; simp [MemoryStore.NewMemoryStore, Second])]
      exact Increment_survives _ _ _ _ (by intro v hv; cases hv)
        (by simp [MemoryStore.NewMemoryStore, MemoryStore.Minute]))).1⟩

end FixedWindowRollOver

/-! ## The epoch divisor and the sliding window counter formula -/

section Numeric

variable {σ : Type}

theorem goInt_of_nonneg (q : ℚ) (h : 0 ≤ q) : goInt q = ⌊q⌋ := by
  rw [Rat.floor_def, goInt]
  exact Int.tdiv_eq_ediv (Rat.num_nonneg.mpr h) (by positivity)

theorem divisor_ne_zero (window : Int) (h : Second ≤ window) : goInt (Seconds window) ≠ 0 := by
  have hsec : 1 ≤ Int.tdiv window Second := by
    rw [Int.tdiv_eq_ediv (by rw [Second] at h; omega) (by decide)]
    rw [Second] at h ⊢
    omega
  have hnsec : 0 ≤ Int.tmod window Second :=
    Int.tmod_nonneg _ (by rw [Second] at h; omega)
  have a : (1 : ℚ) ≤ ofInt (Int.tdiv window Second) :=
    float64_ge_one _ (by exact_mod_cast hsec)
  have b : (0 : ℚ) ≤ fdiv (ofInt (Int.tmod window Second)) 1000000000 := by
    apply float64_nonneg
    exact div_nonneg (float64_nonneg _ (by exact_mod_cast hnsec)) (by norm_num)
  have h1 : (1 : ℚ) ≤ Seconds window := by
    rw [Seconds, fadd]
    exact float64_ge_one _ (by linarith)
  rw [goInt_of_nonneg _ (by linarith)]
  have : (1 : Int) ≤ ⌊Seconds window⌋ := Int.le_floor.mpr (by simpa using h1)
  omega

/-- A window from 0 up to, and not including, one second has `window.Seconds()` in `[0, 1)`. -/
theorem Seconds_short (window : Int) (h0 : 0 ≤ window) (h : window < Second) :
    0 ≤ Seconds window ∧ Seconds window < 1 := by
  have hsec : Int.tdiv window Second = 0 := Int.tdiv_eq_zero_of_lt h0 h
  have hnsec : Int.tmod window Second = window := Int.tmod_eq_of_lt h0 h
  have hw : float64 (window : ℚ) = window :=
    float64_intCast window (by rw [abs_of_nonneg h0, Second] at *; omega)
  have hq0 : (0 : ℚ) ≤ (window : ℚ) / 1000000000 :=
    div_nonneg (by exact_mod_cast h0) (by norm_num)
  have hq1 : (window : ℚ) / 1000000000 ≤ 1 - 1 / 2 ^ 30 := by
    rw [div_le_iff₀ (by norm_num)]
    have h2 : window ≤ 999999999 := by rw [Second] at h; omega
    have : (window : ℚ) ≤ 999999999 := by exact_mod_cast h2
    norm_num
    linarith
  obtain ⟨a0, a1⟩ := float64_below_one _ hq0 hq1
  obtain ⟨b0, b1⟩ := float64_below_one _ a0 a1
  simp only [Seconds, fadd, fdiv, ofInt, hsec, hnsec, Int.cast_zero, float64_zero, zero_add, hw]
  exact ⟨b0, lt_of_le_of_lt b1 (by norm_num)⟩

theorem divisor_eq_zero (window : Int) (h0 : 0 < window) (h : window < Second) :
    goInt (Seconds window) = 0 := by
  obtain ⟨h2, h1⟩ := Seconds_short window h0.le h
  rw [goInt_of_nonneg _ h2, Int.floor_eq_zero_iff]
  exact ⟨h2, h1⟩

/-- C18: safety of the epoch computation. For a positive window, the divisor
`int64(window.Seconds())` of `now / divisor` and `now % divisor` is non-zero when the window is at
least one second, and is zero when the window is shorter than one second; in that case every
request through `FixedWindowLimiter` and `SlidingWindowCounterLimiter` ends in an integer division
by zero, whatever the store. -/
theorem C18_epoch_divisor (window : Int) (hpos : 0 < window) :
    (Second ≤ window → goInt (Seconds window) ≠ 0) ∧
    (window < Second → goInt (Seconds window) = 0 ∧
      ∀ (τ : Type) (store : Store τ) (limit : Int) (id : String) (now : Int) (s : τ),
        FixedWindowLimiter store limit window id now s = (Verdict.divideByZero, s) ∧
        SlidingWindowCounterLimiter store limit window id now s = (Verdict.divideByZero, s)) := by
  refine ⟨divisor_ne_zero window, ?_⟩
  intro h
  have hz := divisor_eq_zero window hpos h
  refine ⟨hz, ?_⟩
  intro τ store limit id now s
  simp [FixedWindowLimiter, SlidingWindowCounterLimiter, hz]

/-- C18 at a concrete input: a window of half a second. -/
theorem C18_epoch_divisor_witness :
    goInt (Seconds 500000000) = 0 ∧
    FixedWindowLimiter unavailableStore 10 500000000 "10.0.0.1" 7 () =
      (Verdict.divideByZero, ()) :=
  ⟨((C18_epoch_divisor 500000000 (by decide)).2 (by decide)).1,
   (((C18_epoch_divisor 500000000 (by decide)).2 (by decide)).2 Unit unavailableStore 10
      "10.0.0.1" 7 ()).1⟩

theorem goInt_ge_iff (q : ℚ) (limit : Int) (h : 0 ≤ q) : goInt q ≥ limit ↔ (limit : ℚ) ≤ q := by
  rw [goInt_of_nonneg q h, ge_iff_le, Int.le_floor]

/-- The `float64` estimate is within `(5p + c) * 2^-53` of the exact one. -/
theorem floatEstimate_close (p c r W : Int) (hW : 1 ≤ W) (hr0 : 0 ≤ r) (hr : r < W)
    (hp : 0 ≤ p) (hc : 1 ≤ c) (hb : (5 * p + c) * W < 2 ^ 53) :
    |floatEstimate p c r (W : ℚ) - ((p : ℚ) * (1 - (r : ℚ) / (W : ℚ)) + (c : ℚ))| ≤
      (5 * (p : ℚ) + (c : ℚ)) / 2 ^ 53 := by
  have hk : 1 ≤ 5 * p + c := by omega
  have hW53 : W < 2 ^ 53 := by nlinarith
  have hpc : 5 * p + c < 2 ^ 53 := by nlinarith
  have hfr : float64 (r : ℚ) = r := float64_intCast r (by rw [abs_of_nonneg hr0]; omega)
  have hfp : float64 (p : ℚ) = p := float64_intCast p (by rw [abs_of_nonneg hp]; omega)
  have hfc : float64 (c : ℚ) = c := float64_intCast c (by rw [abs_of_nonneg (by omega)]; omega)
  have hWq : (0 : ℚ) < (W : ℚ) := by exact_mod_cast (by omega : (0 : Int) < W)
  have hpq : (0 : ℚ) ≤ (p : ℚ) := by exact_mod_cast hp
  have hcq : (1 : ℚ) ≤ (c : ℚ) := by exact_mod_cast hc
  have hx0 : (0 : ℚ) ≤ (r : ℚ) / (W : ℚ) := div_nonneg (by exact_mod_cast hr0) hWq.le
  have hx1 : (r : ℚ) / (W : ℚ) ≤ 1 := by
    rw [div_le_one hWq]; exact_mod_cast hr.le
  simp only [floatEstimate, fadd, fmul, fsub, fdiv, ofInt, hfr, hfp, hfc]
  generalize (r : ℚ) / (W : ℚ) = x at hx0 hx1
  have hu : (0 : ℚ) < 1 / 2 ^ 53 := by positivity
  have hu8 : (1 : ℚ) / 2 ^ 53 ≤ 1 / 17 := by norm_num
  -- the four roundings
  have e1 := abs_le.mp (float64_err_of_le x 1 (by rw [abs_of_nonneg hx0]; exact hx1))
  generalize float64 x = a at e1 ⊢
  have e2 := abs_le.mp (float64_err_of_le (1 - a) (9 / 8)
    (by rw [abs_le]; constructor <;> linarith))
  generalize float64 (1 - a) = b at e2 ⊢
  have hb1 : b ≤ 5 / 4 := by linarith
  have hb0 : -(5 / 4) ≤ b := by linarith
  have e3 := abs_le.mp (float64_err_of_le ((p : ℚ) * b) (5 / 4 * (p : ℚ))
    (by rw [abs_le]; constructor <;> nlinarith))
  generalize float64 ((p : ℚ) * b) = m at e3 ⊢
  have hz1 : (p : ℚ) * b ≤ 5 / 4 * (p : ℚ) := by nlinarith
  have hz0 : -(5 / 4 * (p : ℚ)) ≤ (p : ℚ) * b := by nlinarith
  have hpu : (p : ℚ) * (1 / 2 ^ 53) ≤ (p : ℚ) * (1 / 17) :=
    mul_le_mul_of_nonneg_left hu8 hpq
  have e4 := abs_le.mp (float64_err_of_le (m + (c : ℚ)) (3 / 2 * (p : ℚ) + (c : ℚ))
    (by rw [abs_le]; constructor <;> linarith))
  generalize float64 (m + (c : ℚ)) = t at e4 ⊢
  have hbx1 : b - (1 - x) ≤ 17 / 8 * (1 / 2 ^ 53) := by linarith
  have hbx0 : -(17 / 8 * (1 / 2 ^ 53)) ≤ b - (1 - x) := by linarith
  have hm1 : (p : ℚ) * (b - (1 - x)) ≤ (p : ℚ) * (17 / 8 * (1 / 2 ^ 53)) :=
    mul_le_mul_of_nonneg_left hbx1 hpq
  have hm0 : (p : ℚ) * -(17 / 8 * (1 / 2 ^ 53)) ≤ (p : ℚ) * (b - (1 - x)) :=
    mul_le_mul_of_nonneg_left hbx0 hpq
  rw [abs_le]
  constructor <;> linarith

/-- The exact estimate is a multiple of `1/W`. -/
theorem estimate_eq_div (p c now W : Int) (hW : 1 ≤ W) :
    estimate p c now W = ((p * (W - now % W) + c * W : Int) : ℚ) / (W : ℚ) := by
  have hWq : (W : ℚ) ≠ 0 := by exact_mod_cast (by omega : W ≠ 0)
  unfold estimate
  push_cast
  field_simp

/-- The handler of the sliding window counter in terms of the results of its two store calls,
for a window of `W` whole seconds and a Unix time `now ≥ 0`. -/
theorem slidingCounter_decision (store : Store σ) (limit W : Int) (id : String) (now : Int)
    (s : σ) (hW : 1 ≤ W) (hW53 : W < 2 ^ 53) (hnow : 0 ≤ now)
    (herr : (store.Increment
        (store.Get s ("swc:" ++ id ++ ":" ++ formatInt (Int.tdiv now W - 1))).2
        ("swc:" ++ id ++ ":" ++ formatInt (Int.tdiv now W))
        (wrapInt64 (W * Second * 2))).1.2 = none) :
    (SlidingWindowCounterLimiter store limit (W * Second) id now s).1 =
      if goInt (floatEstimate
          (store.Get s ("swc:" ++ id ++ ":" ++ formatInt (Int.tdiv now W - 1))).1.1
          (store.Increment
            (store.Get s ("swc:" ++ id ++ ":" ++ formatInt (Int.tdiv now W - 1))).2
            ("swc:" ++ id ++ ":" ++ formatInt (Int.tdiv now W))
            (wrapInt64 (W * Second * 2))).1.1
          (now % W) (W : ℚ)) ≥ limit
      then Verdict.reject else Verdict.pass := by
  have hW0 : W ≠ 0 := by omega
  have hmod : Int.tmod now W = now % W := Int.tmod_eq_emod hnow (by omega)
  simp only [SlidingWindowCounterLimiter, Seconds_whole W (by omega) hW53, goInt_intCast, hW0,
    if_false, herr, ne_eq, not_true_eq_false, hmod, floatEstimate]
  split_ifs <;> rfl

/-- C17, the claim as stated fails: a window of 5 seconds, the Unix time 4 (elapsed fraction
4/5), the previous count 5, the current count 1 and the limit 2. The exact estimate is
`5 * (1 - 4/5) + 1 = 2`, not below the limit, yet the request is passed: in `float64` the
quotient `4/5` rounds up, the estimate comes out as `2 - 2^-52` and `int(rate)` is 1. -/
theorem C17_counterexample :
    estimate 5 1 4 5 = 2 ∧
    floatEstimate 5 1 (4 % 5) ((5 : Int) : ℚ) = 9007199254740991 / 4503599627370496 ∧
    (SlidingWindowCounterLimiter (fixedCountStore 5 1) 2 (5 * Second) "10.0.0.1" 4 ()).1 =
      Verdict.pass := by
  have h1 : fdiv 4 5 = ((7205759403792794 : Int) : ℚ) * (2 : ℚ) ^ (-53 : ℤ) := by
    have hb := float64_of_bounds (4 / 5) (-1) (by norm_num [abs_of_pos]) (by norm_num [abs_of_pos])
    have hr : roundEven ((4 / 5 : ℚ) / (2 : ℚ) ^ ((-1 : ℤ) - 52)) = 7205759403792794 :=
      roundEven_nearest _ _ (by norm_num) (by norm_num)
    rw [fdiv, hb, hr]
    norm_num
  have h2 : fsub 1 (((7205759403792794 : Int) : ℚ) * (2 : ℚ) ^ (-53 : ℤ)) =
      ((1801439850948198 : Int) : ℚ) * (2 : ℚ) ^ (-53 : ℤ) := by
    rw [fsub, ← float64_exact 1801439850948198 (-53) (by norm_num)]
    congr 1
    norm_num
  have h3 : fmul 5 (((1801439850948198 : Int) : ℚ) * (2 : ℚ) ^ (-53 : ℤ)) =
      ((9007199254740990 : Int) : ℚ) * (2 : ℚ) ^ (-53 : ℤ) := by
    rw [fmul, ← float64_exact 9007199254740990 (-53) (by norm_num)]
    congr 1
    norm_num
  have h4 : fadd (((9007199254740990 : Int) : ℚ) * (2 : ℚ) ^ (-53 : ℤ)) 1 =
      ((9007199254740991 : Int) : ℚ) * (2 : ℚ) ^ (-52 : ℤ) := by
    rw [fadd, ← float64_exact 9007199254740991 (-52) (by norm_num)]
    congr 1
    norm_num
  have hF : floatEstimate 5 1 (4 % 5) ((5 : Int) : ℚ) =
      9007199254740991 / 4503599627370496 := by
    have o5 : ofInt 5 = 5 := by simpa [ofInt] using float64_intCast 5 (by norm_num)
    have o4 : ofInt 4 = 4 := by simpa [ofInt] using float64_intCast 4 (by norm_num)
    have o1 : ofInt 1 = 1 := by simpa [ofInt] using float64_intCast 1 (by norm_num)
    have h45 : (4 : Int) % 5 = 4 := by decide
    rw [floatEstimate, h45, o5, o4, o1]
    simp only [Int.cast_ofNat]
    rw [h1, h2, h3, h4]
    norm_num
  refine ⟨by norm_num [estimate], hF, ?_⟩
  rw [slidingCounter_decision (fixedCountStore 5 1) 2 5 "10.0.0.1" 4 () (by decide)
    (by norm_num) (by decide) rfl]
  have hg : goInt (floatEstimate 5 1 (4 % 5) ((5 : Int) : ℚ)) = 1 := by
    rw [hF, goInt_of_nonneg _ (by norm_num), Int.floor_eq_iff]
    norm_num
  simp only [fixedCountStore, hg]
  decide

/-- C17, amended: the decision of `SlidingWindowCounterLimiter`, whose estimate is computed in
`float64`. For every window of `W ≥ 1` whole seconds, Unix time `now ≥ 0`, integer limit and every
store whose `Get` of the previous window's key returns a count `p ≥ 0` and whose `Increment` of
the current window's key returns a count `c ≥ 1` without error, with `(5p + c) * W < 2^53`: the
request is passed when the exact estimate `p * (1 - (now mod W) / W) + c` is below the limit and
is rejected with 429 when it is above the limit; when the previous count is 0 or `now` is on a
window boundary the estimate is computed exactly, and then the request is passed iff the estimate
is below the limit and rejected iff it is at least the limit. -/
theorem C17_sliding_counter_formula (store : Store σ) (limit W : Int) (id : String) (now : Int)
    (s : σ) (hW : 1 ≤ W) (hnow : 0 ≤ now)
    (hp : 0 ≤ (store.Get s ("swc:" ++ id ++ ":" ++ formatInt (Int.tdiv now W - 1))).1.1)
    (hc : 1 ≤ (store.Increment
        (store.Get s ("swc:" ++ id ++ ":" ++ formatInt (Int.tdiv now W - 1))).2
        ("swc:" ++ id ++ ":" ++ formatInt (Int.tdiv now W))
        (wrapInt64 (W * Second * 2))).1.1)
    (hsmall : (5 * (store.Get s ("swc:" ++ id ++ ":" ++ formatInt (Int.tdiv now W - 1))).1.1 +
        (store.Increment
          (store.Get s ("swc:" ++ id ++ ":" ++ formatInt (Int.tdiv now W - 1))).2
          ("swc:" ++ id ++ ":" ++ formatInt (Int.tdiv now W))
          (wrapInt64 (W * Second * 2))).1.1) * W < 2 ^ 53)
    (herr : (store.Increment
        (store.Get s ("swc:" ++ id ++ ":" ++ formatInt (Int.tdiv now W - 1))).2
        ("swc:" ++ id ++ ":" ++ formatInt (Int.tdiv now W))
        (wrapInt64 (W * Second * 2))).1.2 = none) :
    (estimate (store.Get s ("swc:" ++ id ++ ":" ++ formatInt (Int.tdiv now W - 1))).1.1
        (store.Increment
          (store.Get s ("swc:" ++ id ++ ":" ++ formatInt (Int.tdiv now W - 1))).2
          ("swc:" ++ id ++ ":" ++ formatInt (Int.tdiv now W))
          (wrapInt64 (W * Second * 2))).1.1
        now W < (limit : ℚ) →
      (SlidingWindowCounterLimiter store limit (W * Second) id now s).1 = Verdict.pass) ∧
    ((limit : ℚ) <
      estimate (store.Get s ("swc:" ++ id ++ ":" ++ formatInt (Int.tdiv now W - 1))).1.1
        (store.Increment
          (store.Get s ("swc:" ++ id ++ ":" ++ formatInt (Int.tdiv now W - 1))).2
          ("swc:" ++ id ++ ":" ++ formatInt (Int.tdiv now W))
          (wrapInt64 (W * Second * 2))).1.1
        now W →
      (SlidingWindowCounterLimiter store limit (W * Second) id now s).1 = Verdict.reject) ∧
    ((store.Get s ("swc:" ++ id ++ ":" ++ formatInt (Int.tdiv now W - 1))).1.1 = 0 ∨
        now % W = 0 →
      ((SlidingWindowCounterLimiter store limit (W * Second) id now s).1 = Verdict.pass ↔
        estimate (store.Get s ("swc:" ++ id ++ ":" ++ formatInt (Int.tdiv now W - 1))).1.1
          (store.Increment
            (store.Get s ("swc:" ++ id ++ ":" ++ formatInt (Int.tdiv now W - 1))).2
            ("swc:" ++ id ++ ":" ++ formatInt (Int.tdiv now W))
            (wrapInt64 (W * Second * 2))).1.1
          now W < (limit : ℚ)) ∧
      ((SlidingWindowCounterLimiter store limit (W * Second) id now s).1 = Verdict.reject ↔
        (limit : ℚ) ≤
        estimate (store.Get s ("swc:" ++ id ++ ":" ++ formatInt (Int.tdiv now W - 1))).1.1
          (store.Increment
            (store.Get s ("swc:" ++ id ++ ":" ++ formatInt (Int.tdiv now W - 1))).2
            ("swc:" ++ id ++ ":" ++ formatInt (Int.tdiv now W))
            (wrapInt64 (W * Second * 2))).1.1
          now W)) := by
  have hk : 1 ≤ 5 * (store.Get s ("swc:" ++ id ++ ":" ++
      formatInt (Int.tdiv now W - 1))).1.1 + (store.Increment
        (store.Get s ("swc:" ++ id ++ ":" ++ formatInt (Int.tdiv now W - 1))).2
        ("swc:" ++ id ++ ":" ++ formatInt (Int.tdiv now W))
        (wrapInt64 (W * Second * 2))).1.1 := by omega
  have hW53 : W < 2 ^ 53 := by nlinarith
  rw [slidingCounter_decision store limit W id now s hW hW53 hnow herr]
  have hr0 : 0 ≤ now % W := Int.emod_nonneg now (by omega)
  have hr1 : now % W < W := Int.emod_lt_of_pos now (by omega)
  have hclose := abs_le.mp (floatEstimate_close _ _ (now % W) W hW hr0 hr1 hp hc hsmall)
  have hdiv := estimate_eq_div
    (store.Get s ("swc:" ++ id ++ ":" ++ formatInt (Int.tdiv now W - 1))).1.1
    (store.Increment
      (store.Get s ("swc:" ++ id ++ ":" ++ formatInt (Int.tdiv now W - 1))).2
      ("swc:" ++ id ++ ":" ++ formatInt (Int.tdiv now W))
      (wrapInt64 (W * Second * 2))).1.1 now W hW
  have hest : estimate
      (store.Get s ("swc:" ++ id ++ ":" ++ formatInt (Int.tdiv now W - 1))).1.1
      (store.Increment
        (store.Get s ("swc:" ++ id ++ ":" ++ formatInt (Int.tdiv now W - 1))).2
        ("swc:" ++ id ++ ":" ++ formatInt (Int.tdiv now W))
        (wrapInt64 (W * Second * 2))).1.1 now W =
      ((store.Get s ("swc:" ++ id ++ ":" ++ formatInt (Int.tdiv now W - 1))).1.1 : ℚ) *
        (1 - ((now % W : Int) : ℚ) / (W : ℚ)) +
      ((store.Increment
        (store.Get s ("swc:" ++ id ++ ":" ++ formatInt (Int.tdiv now W - 1))).2
        ("swc:" ++ id ++ ":" ++ formatInt (Int.tdiv now W))
        (wrapInt64 (W * Second * 2))).1.1 : ℚ) := rfl
  rw [← hest] at hclose
  generalize (store.Get s ("swc:" ++ id ++ ":" ++ formatInt (Int.tdiv now W - 1))).1.1 = p
    at hp hc hsmall hk hclose hdiv ⊢
  generalize (store.Increment
      (store.Get s ("swc:" ++ id ++ ":" ++ formatInt (Int.tdiv now W - 1))).2
      ("swc:" ++ id ++ ":" ++ formatInt (Int.tdiv now W))
      (wrapInt64 (W * Second * 2))).1.1 = c at hc hsmall hk hclose hdiv ⊢
  have hWq : (0 : ℚ) < (W : ℚ) := by exact_mod_cast (by omega : (0 : Int) < W)
  have herrW : (5 * (p : ℚ) + (c : ℚ)) / 2 ^ 53 < 1 / (W : ℚ) := by
    rw [div_lt_div_iff₀ (by positivity) hWq]
    have : (((5 * p + c) * W : Int) : ℚ) < ((2 ^ 53 : Int) : ℚ) := by exact_mod_cast hsmall
    push_cast at this
    linarith
  have hWle : 1 / (W : ℚ) ≤ 1 := by
    rw [div_le_one hWq]; exact_mod_cast hW
  have hest1 : (1 : ℚ) ≤ estimate p c now W := by
    have hm : ((now % W : Int) : ℚ) / (W : ℚ) ≤ 1 := by
      rw [div_le_one hWq]; exact_mod_cast hr1.le
    have hpq : (0 : ℚ) ≤ (p : ℚ) := by exact_mod_cast hp
    have hcq : (1 : ℚ) ≤ (c : ℚ) := by exact_mod_cast hc
    unfold estimate
    nlinarith [mul_nonneg hpq (sub_nonneg.mpr hm)]
  have hrate0 : 0 ≤ floatEstimate p c (now % W) (W : ℚ) := by linarith
  have hge := goInt_ge_iff _ limit hrate0
  refine ⟨?_, ?_, ?_⟩
  · intro h
    have hN : p * (W - now % W) + c * W + 1 ≤ limit * W := by
      rw [hdiv, div_lt_iff₀ hWq] at h
      have : p * (W - now % W) + c * W < limit * W := by exact_mod_cast h
      omega
    have hgap : estimate p c now W + 1 / (W : ℚ) ≤ (limit : ℚ) := by
      rw [hdiv, ← add_div, div_le_iff₀ hWq]
      exact_mod_cast hN
    rw [if_neg]
    intro hh
    have := hge.mp hh
    linarith
  · intro h
    have hN : limit * W + 1 ≤ p * (W - now % W) + c * W := by
      rw [hdiv, lt_div_iff₀ hWq] at h
      have : limit * W < p * (W - now % W) + c * W := by exact_mod_cast h
      omega
    have hgap : (limit : ℚ) + 1 / (W : ℚ) ≤ estimate p c now W := by
      rw [hdiv, le_div_iff₀ hWq, add_mul, one_div, inv_mul_cancel₀ hWq.ne']
      exact_mod_cast hN
    rw [if_pos]
    exact hge.mpr (by linarith)
  · intro hex
    have hfloat : floatEstimate p c (now % W) (W : ℚ) = estimate p c now W := by
      have hpc : 5 * p + c < 2 ^ 53 := by nlinarith
      rcases hex with h0 | h0
      · subst h0
        rw [floatEstimate_zero_prev _ _ _ (by rw [abs_of_nonneg (by omega)]; omega)]
        simp [estimate]
      · have hfp : float64 (p : ℚ) = p :=
          float64_intCast p (by rw [abs_of_nonneg hp]; omega)
        have hfc : float64 (c : ℚ) = c :=
          float64_intCast c (by rw [abs_of_nonneg (by omega)]; omega)
        have hfpc : float64 ((p : ℚ) + (c : ℚ)) = (p : ℚ) + (c : ℚ) := by
          have := float64_intCast (p + c) (by rw [abs_of_nonneg (by omega)]; omega)
          simpa using this
        have hf1 : float64 (1 : ℚ) = 1 := by
          simpa using float64_intCast 1 (by norm_num)
        simp only [floatEstimate, estimate, h0, fadd, fmul, fsub, fdiv, ofInt, Int.cast_zero,
          float64_zero, zero_div, sub_zero, hf1, mul_one, hfp, hfc, hfpc]
    rw [hfloat] at hge
    constructor
    · constructor
      · intro h
        by_contra hcon
        rw [hfloat, if_pos (hge.mpr (not_lt.mp hcon))] at h
        exact absurd h (by decide)
      · intro h
        rw [hfloat, if_neg (fun hh => absurd (hge.mp hh) (not_le.mpr h))]
    · constructor
      · intro h
        by_contra hcon
        rw [hfloat, if_neg (fun hh => hcon (hge.mp hh))] at h
        exact absurd h (by decide)
      · intro h
        rw [hfloat, if_pos (hge.mpr h)]

/-- C17 amended, at a concrete input: a window of 10 seconds, the Unix time 25 (elapsed fraction
5/10), the previous count 4 and the current count 3: the estimate is `4 * (1 - 1/2) + 3 = 5`; under
the limit 6 the request is passed, under the limit 4 it is rejected. -/
theorem C17_sliding_counter_formula_witness :
    estimate 4 3 25 10 = 5 ∧
    (SlidingWindowCounterLimiter (fixedCountStore 4 3) 6 (10 * Second) "10.0.0.1" 25 ()).1 =
      Verdict.pass ∧
    (SlidingWindowCounterLimiter (fixedCountStore 4 3) 4 (10 * Second) "10.0.0.1" 25 ()).1 =
      Verdict.reject :=
  ⟨by norm_num [estimate],
   (C17_sliding_counter_formula (fixedCountStore 4 3) 6 10 "10.0.0.1" 25 () (by decide)
      (by decide) (by decide) (by decide) (by norm_num [fixedCountStore]) rfl).1
      (by norm_num [estimate, fixedCountStore]),
   (C17_sliding_counter_formula (fixedCountStore 4 3) 4 10 "10.0.0.1" 25 () (by decide)
      (by decide) (by decide) (by decide) (by norm_num [fixedCountStore]) rfl).2.1
      (by norm_num [estimate, fixedCountStore])⟩

end Numeric

/-! ## Sliding window log: what every request reads -/

section SlidingWindowLogTrace

variable {Λ : Type}

theorem serve_length {σ α β : Type} (h : α → σ → β × σ) (l : List α) (s : σ) :
    (serve h l s).1.length = l.length := by
  induction l generalizing s with
  | nil => simp [serve]
  | cons a l ih => simp [serve, ih]

theorem filter_filter_of_le (l : List Int) (m m2 : Int) (h : m ≤ m2) :
    (l.filter (fun u => u ≥ m)).filter (fun u => u ≥ m2) = l.filter (fun u => u ≥ m2) := by
  rw [List.filter_filter]
  apply List.filter_congr
  intro x _
  by_cases hx : x ≥ m2
  · have : x ≥ m := le_trans h hx
    simp [hx, this]
  · simp [hx]

theorem filter_append_last (l : List Int) (t window : Int) (hW : 0 ≤ window) :
    (l ++ [t]).filter (fun u => u ≥ t - window) = l.filter (fun u => u ≥ t - window) ++ [t] := by
  have h : t - window ≤ t := by omega
  rw [List.filter_append]
  congr 1
  simp [List.filter, h]

/-- After requests at non-decreasing times the stored log is the whole history filtered at some
threshold, and that threshold is at most `b - window` for any `b` bounding the times. -/
theorem slidingLog_history (lib : RateLibrary Λ) (limit window : Int) (id : String)
    (hW : 0 ≤ window) (b : Int) :
    ∀ (rest pre : List Int) (m : Int) (s : MemoryStore Λ),
      (s.entry ("swl:" ++ id)).timestamps = pre.filter (fun u => u ≥ m) →
      m ≤ b - window →
      (∀ t ∈ rest, t ≤ b) →
      (∀ t ∈ rest, m ≤ t - window) →
      rest.Pairwise (fun x y => x ≤ y) →
      ∃ m2, m2 ≤ b - window ∧
        ((serve (SlidingWindowLogLimiter (MemoryStore.store lib) limit window id) rest s).2.entry
          ("swl:" ++ id)).timestamps = (pre ++ rest).filter (fun u => u ≥ m2) := by
  intro rest
  induction rest with
  | nil =>
    intro pre m s hs hm _ _ _
    exact ⟨m, hm, by simpa [serve] using hs⟩
  | cons t ts ih =>
    intro pre m s hs hm hb hthr hsorted
    obtain ⟨-, h2⟩ := slidingLog_step lib limit window id t s
    have ht : m ≤ t - window := hthr t (List.mem_cons_self _ _)
    have hstored : ((SlidingWindowLogLimiter (MemoryStore.store lib) limit window id t s).2.entry
        ("swl:" ++ id)).timestamps = (pre ++ [t]).filter (fun u => u ≥ t - window) := by
      rw [h2, hs, filter_filter_of_le pre m (t - window) ht, filter_append_last pre t window hW]
    have hpair := List.pairwise_cons.mp hsorted
    obtain ⟨m2, hm2, hfinal⟩ := ih (pre ++ [t]) (t - window)
      (SlidingWindowLogLimiter (MemoryStore.store lib) limit window id t s).2 hstored
      (by have := hb t (List.mem_cons_self _ _); omega)
      (fun u hu => hb u (List.mem_cons_of_mem _ hu))
      (fun u hu => by have := hpair.1 u hu; omega)
      hpair.2
    refine ⟨m2, hm2, ?_⟩
    rw [serve]
    simpa using hfinal

/-- The last of a run of requests at non-decreasing times, from an empty log: what is stored
afterwards, and the verdict. -/
theorem slidingLog_last (lib : RateLibrary Λ) (limit window : Int) (id : String)
    (hW : 0 ≤ window) (init : List Int) (t : Int) (s : MemoryStore Λ)
    (hempty : (s.entry ("swl:" ++ id)).timestamps = [])
    (hsorted : (init ++ [t]).Pairwise (fun x y => x ≤ y)) :
    ((serve (SlidingWindowLogLimiter (MemoryStore.store lib) limit window id) (init ++ [t])
        s).2.entry ("swl:" ++ id)).timestamps =
      (init ++ [t]).filter (fun u => u ≥ t - window) ∧
    (serve (SlidingWindowLogLimiter (MemoryStore.store lib) limit window id) (init ++ [t]) s).1 =
      (serve (SlidingWindowLogLimiter (MemoryStore.store lib) limit window id) init s).1 ++
        [if ((((init ++ [t]).filter (fun u => u ≥ t - window)).length : Int) > limit)
          then Verdict.reject else Verdict.pass] := by
  have hpair := List.pairwise_append.mp hsorted
  have hle : ∀ u ∈ init, u ≤ t := fun u hu => hpair.2.2 u hu t (List.mem_singleton_self t)
  have hhist : ∃ m2, m2 ≤ t - window ∧
      ((serve (SlidingWindowLogLimiter (MemoryStore.store lib) limit window id) init s).2.entry
        ("swl:" ++ id)).timestamps = init.filter (fun u => u ≥ m2) := by
    cases init with
    | nil => exact ⟨t - window, le_refl _, by simpa [serve] using hempty⟩
    | cons a rest =>
      have hp := List.pairwise_cons.mp hpair.1
      have hmin : ∀ u ∈ a :: rest, a ≤ u := by
        intro u hu
        rcases List.mem_cons.mp hu with h | h
        · rw [h]
        · exact hp.1 u h
      have hat : a ≤ t := hle a (List.mem_cons_self _ _)
      obtain ⟨m2, hm2, hst⟩ := slidingLog_history lib limit window id hW t (a :: rest) []
        (a - window) s (by simpa using hempty) (by omega) hle
        (fun u hu => by have := hmin u hu; omega) hpair.1
      exact ⟨m2, hm2, by simpa using hst⟩
  obtain ⟨m2, hm2, hst⟩ := hhist
  obtain ⟨h1, h2⟩ := slidingLog_step lib limit window id t
    (serve (SlidingWindowLogLimiter (MemoryStore.store lib) limit window id) init s).2
  rw [hst, filter_filter_of_le init m2 (t - window) hm2] at h1 h2
  rw [serve_append, filter_append_last init t window hW]
  simp only [serve, List.length_append, List.length_singleton, Nat.cast_add, Nat.cast_one]
  exact ⟨h2, by rw [h1]⟩

/-- Requests at non-decreasing times served one after the other, without cleanup passes, from an
empty log: the log after the request `i` and the verdict of the request `i`. -/
theorem slidingLog_trace (lib : RateLibrary Λ) (limit window : Int) (id : String)
    (ts : List Int) (s : MemoryStore Λ) (hW : 0 ≤ window)
    (hsorted : ts.Pairwise (fun x y => x ≤ y))
    (hempty : (s.entry ("swl:" ++ id)).timestamps = []) :
    ∀ i, i < ts.length →
      ((serve (SlidingWindowLogLimiter (MemoryStore.store lib) limit window id) (ts.take (i + 1))
          s).2.entry ("swl:" ++ id)).timestamps =
        (ts.take (i + 1)).filter (fun u => u ≥ ts.getD i 0 - window) ∧
      (((serve (SlidingWindowLogLimiter (MemoryStore.store lib) limit window id)
          (ts.take (i + 1)) s).2.entry ("swl:" ++ id)).timestamps.length = logCount window ts i) ∧
      (serve (SlidingWindowLogLimiter (MemoryStore.store lib) limit window id) ts s).1[i]? =
        some (if ((logCount window ts i : Nat) : Int) > limit
          then Verdict.reject else Verdict.pass) := by
  intro i hi
  have hget : ts.getD i 0 = ts[i] := by
    rw [List.getD_eq_getElem?_getD, List.getElem?_eq_getElem hi]
    rfl
  have htake : ts.take (i + 1) = ts.take i ++ [ts.getD i 0] := by
    rw [List.take_succ, List.getElem?_eq_getElem hi, hget]
    rfl
  have hsub : (ts.take i ++ [ts.getD i 0]).Pairwise (fun x y => x ≤ y) := by
    rw [← htake]
    exact hsorted.sublist (List.take_sublist _ _)
  obtain ⟨h1, h2⟩ := slidingLog_last lib limit window id hW (ts.take i) (ts.getD i 0) s hempty
    hsub
  rw [← htake] at h1 h2
  refine ⟨h1, by rw [h1, logCount], ?_⟩
  have hsplit : ts = ts.take (i + 1) ++ ts.drop (i + 1) := (List.take_append_drop _ _).symm
  have hlen : (serve (SlidingWindowLogLimiter (MemoryStore.store lib) limit window id)
      (ts.take i) s).1.length = i := by
    rw [serve_length, List.length_take]
    omega
  conv_lhs => rw [hsplit]
  rw [serve_append, h2, List.append_assoc, List.getElem?_append_right (by omega), hlen]
  simp [logCount]

theorem keptAlive_append_left {α β : Type} (h : α → MemoryStore Λ → β × MemoryStore Λ)
    (key : String) (post : List (Step α)) :
    ∀ (pre : List (Step α)) (s : MemoryStore Λ),
      keptAlive h key (pre ++ post) s → keptAlive h key pre s := by
  intro pre
  induction pre with
  | nil => intro s _; trivial
  | cons e es ih =>
    intro s hk
    cases e with
    | request a => exact ih _ hk
    | cleanup => exact ⟨hk.1, ih _ hk.2⟩

/-- C19, the claim as stated fails: limit 1 and a window of one hour, requests at 0 and four
minutes later from an empty log. A cleanup pass in between finds the entry of the log idle for
more than three minutes and deletes it: after the second request the stored log has length 1,
where the number of requests within the window is 2, and the request is passed. -/
theorem C19_counterexample :
    logCount (3600 * Second) [0, 240000000000] 1 = 2 ∧
    ((serveSwept (SlidingWindowLogLimiter (MemoryStore.store unitLibrary) 1 (3600 * Second)
        "10.0.0.1") [Step.request 0, Step.cleanup, Step.request 240000000000]
      (MemoryStore.NewMemoryStore
        (fun n => if n < 3 then (n : Int) else 240000000000 + (n : Int)))).2.entry
      "swl:10.0.0.1").timestamps = [240000000000] ∧
    (serveSwept (SlidingWindowLogLimiter (MemoryStore.store unitLibrary) 1 (3600 * Second)
        "10.0.0.1") [Step.request 0, Step.cleanup, Step.request 240000000000]
      (MemoryStore.NewMemoryStore
        (fun n => if n < 3 then (n : Int) else 240000000000 + (n : Int)))).1 =
      [Verdict.pass, Verdict.pass] := by
  refine ⟨?_, ?_, ?_⟩ <;> decide

/-- C19, amended: `SlidingWindowLogLimiter` records rejected requests too. Over the in-process
store, for every window `≥ 0` and every run of requests of one client at non-decreasing times
`t_0 ≤ t_1 ≤ ...`, starting from an empty log, with cleanup passes anywhere among the requests of
which none finds the entry of the log idle for more than three minutes: after any part of the run
that ends with or after the request `i` and before the next request, the stored log is the list of
all requests `j ≤ i`, passed or rejected, with `t_j ≥ t_i - window`, so the length the request
reads is `logCount window ts i`; and the request is passed iff that number is `≤ limit` (rejected
with 429 otherwise). An entry exactly `window` old still counts, and rejected requests keep the
count up. -/
theorem C19_sliding_log_counts_rejected (lib : RateLibrary Λ) (limit window : Int) (id : String)
    (events : List (Step Int)) (s : MemoryStore Λ) (hW : 0 ≤ window)
    (hsorted : (requestsOf events).Pairwise (fun x y => x ≤ y))
    (hempty : (s.entry ("swl:" ++ id)).timestamps = [])
    (hkept : keptAlive (SlidingWindowLogLimiter (MemoryStore.store lib) limit window id)
      ("swl:" ++ id) events s) :
    ∀ i, i < (requestsOf events).length →
      (∀ pre post : List (Step Int), events = pre ++ post →
        requestsOf pre = (requestsOf events).take (i + 1) →
        ((serveSwept (SlidingWindowLogLimiter (MemoryStore.store lib) limit window id) pre
            s).2.entry ("swl:" ++ id)).timestamps =
          ((requestsOf events).take (i + 1)).filter
            (fun u => u ≥ (requestsOf events).getD i 0 - window) ∧
        ((serveSwept (SlidingWindowLogLimiter (MemoryStore.store lib) limit window id) pre
            s).2.entry ("swl:" ++ id)).timestamps.length =
          logCount window (requestsOf events) i) ∧
      (serveSwept (SlidingWindowLogLimiter (MemoryStore.store lib) limit window id)
          events s).1[i]? =
        some (if ((logCount window (requestsOf events) i : Nat) : Int) > limit
          then Verdict.reject else Verdict.pass) := by
  intro i hi
  obtain ⟨h1, h2, h3⟩ := slidingLog_trace lib limit window id (requestsOf events) s hW hsorted
    hempty i hi
  refine ⟨?_, ?_⟩
  · intro pre post hsplit hpre
    have hk : keptAlive (SlidingWindowLogLimiter (MemoryStore.store lib) limit window id)
        ("swl:" ++ id) pre s :=
      keptAlive_append_left _ _ post pre s (by rw [← hsplit]; exact hkept)
    have he := (slidingLog_swept_eq lib limit window id pre s s rfl hk).2
    rw [hpre] at he
    rw [he]
    exact ⟨h1, h2⟩
  · rw [(slidingLog_swept_eq lib limit window id events s s rfl hkept).1]
    exact h3

/-- C19 amended, at a concrete input: limit 1, a window of 10 ns, requests at 0, 10 and 20 with a
cleanup pass after the first. The request at 10 counts the entry at 0, exactly one window old, and
is rejected; the request at 20 counts the rejected request at 10 and is rejected as well. -/
theorem C19_sliding_log_counts_rejected_witness :
    (serveSwept (SlidingWindowLogLimiter (MemoryStore.store unitLibrary) 1 10 "10.0.0.1")
      [Step.request 0, Step.cleanup, Step.request 10, Step.request 20]
      (MemoryStore.NewMemoryStore (fun n => (n : Int)))).1[2]? = some Verdict.reject := by
  have h := (C19_sliding_log_counts_rejected unitLibrary 1 10 "10.0.0.1"
    [Step.request 0, Step.cleanup, Step.request 10, Step.request 20]
    (MemoryStore.NewMemoryStore (fun n => (n : Int))) (by decide) (by decide) rfl
    (by
      simp only [keptAlive, and_true]
      exact slidingLog_survives _ _ _ _ _ _
        (by simp [MemoryStore.NewMemoryStore, MemoryStore.Minute]))
    2 (by decide)).2
  rw [h]
  decide

end SlidingWindowLogTrace

/-! ## Setup of the limiters -/

section SetupOfLimiters

variable {σ : Type}

theorem goInt_neg (q : ℚ) : goInt (-q) = -goInt q := by
  simp [goInt, Int.neg_tdiv]

theorem goInt_eq_zero (q : ℚ) (h1 : -1 < q) (h2 : q < 1) : goInt q = 0 := by
  by_cases h : 0 ≤ q
  · rw [goInt_of_nonneg q h, Int.floor_eq_zero_iff]
    exact ⟨h, h2⟩
  · have hq : 0 ≤ -q := by linarith
    have h3 : goInt (-q) = 0 := by
      rw [goInt_of_nonneg _ hq, Int.floor_eq_zero_iff]
      exact ⟨hq, by linarith⟩
    rw [goInt_neg] at h3
    omega

theorem divisor_eq_zero_of_short (window : Int) (h1 : -Second < window) (h2 : window < Second) :
    goInt (Seconds window) = 0 := by
  rw [Second] at h1 h2
  have hsec : Int.tdiv window Second = 0 := by
    rw [Second]
    rcases le_or_lt 0 window with h | h
    · exact Int.tdiv_eq_zero_of_lt h h2
    · have : Int.tdiv (-window) 1000000000 = 0 := Int.tdiv_eq_zero_of_lt (by omega) (by omega)
      rw [Int.neg_tdiv] at this
      omega
  have hnsec : Int.tmod window Second = window := by
    have := Int.tdiv_add_tmod window Second
    rw [hsec] at this
    omega
  have hw : float64 (window : ℚ) = window :=
    float64_intCast window (by rw [abs_lt]; constructor <;> omega)
  have hx : |(window : ℚ) / 1000000000| ≤ 999999999 / 1000000000 := by
    rw [abs_div, abs_of_pos (by norm_num : (0 : ℚ) < 1000000000),
      div_le_div_iff_of_pos_right (by norm_num)]
    have : |window| ≤ 999999999 := by rw [abs_le]; constructor <;> omega
    exact_mod_cast this
  have e1 := float64_err_of_le _ _ hx
  simp only [Seconds, fadd, fdiv, ofInt, hsec, hnsec, Int.cast_zero, float64_zero, zero_add, hw]
  generalize (window : ℚ) / 1000000000 = x at hx e1 ⊢
  have hx2 := abs_le.mp hx
  have e1b := abs_le.mp e1
  generalize float64 x = a at e1 e1b ⊢
  have ha : |a| ≤ 999999999 / 1000000000 + 999999999 / 1000000000 / 2 ^ 53 := by
    rw [abs_le]; constructor <;> linarith
  have e2 := abs_le.mp (float64_err_of_le a _ ha)
  have ha2 := abs_le.mp ha
  apply goInt_eq_zero
  · have : (-1 : ℚ) < -(999999999 / 1000000000 + 999999999 / 1000000000 / 2 ^ 53) -
        (999999999 / 1000000000 + 999999999 / 1000000000 / 2 ^ 53) / 2 ^ 53 := by norm_num
    linarith
  · have : (999999999 / 1000000000 + 999999999 / 1000000000 / 2 ^ 53) +
        (999999999 / 1000000000 + 999999999 / 1000000000 / 2 ^ 53) / 2 ^ 53 < (1 : ℚ) := by
      norm_num
    linarith

/-- C15, the claim as stated fails: `FixedWindowLimiter` set up with the limit -1 and the window 0
returns a handler, and the failure comes at request time, where the handler divides by zero. -/
theorem C15_counterexample :
    ∃ h, setupFixedWindowLimiter unavailableStore (-1) 0 = Setup.returned h ∧
      (h "10.0.0.1" 7 ()).1 = Verdict.divideByZero :=
  ⟨FixedWindowLimiter unavailableStore (-1) 0, rfl, by
    simp [FixedWindowLimiter, divisor_eq_zero_of_short 0 (by decide) (by decide)]⟩

/-- C15, amended: the constructors do not validate. For every store and every limit, window, rate
and burst, non-positive ones included, each of the five constructors returns its handler; no
`InvalidParameters` failure exists at setup. When the window is strictly between -1 s and 1 s, so
for the window 0, the failure is deferred to request time: every request through
`FixedWindowLimiter` and `SlidingWindowCounterLimiter` ends in an integer division by zero. -/
theorem C15_constructors_do_not_validate (store : Store σ) (limit window : Int) (rate : ℚ)
    (burst : Int) :
    setupFixedWindowLimiter store limit window =
      Setup.returned (FixedWindowLimiter store limit window) ∧
    setupTokenBucketLimiter store rate burst =
      Setup.returned (TokenBucketLimiter store rate burst) ∧
    setupSlidingWindowLogLimiter store limit window =
      Setup.returned (SlidingWindowLogLimiter store limit window) ∧
    setupSlidingWindowCounterLimiter store limit window =
      Setup.returned (SlidingWindowCounterLimiter store limit window) ∧
    setupLeakyBucketLimiter store rate burst =
      Setup.returned (LeakyBucketLimiter store rate burst) ∧
    (-Second < window → window < Second →
      (∀ (id : String) (now : Int) (s : σ),
        FixedWindowLimiter store limit window id now s = (Verdict.divideByZero, s)) ∧
      (∀ (id : String) (now : Int) (s : σ),
        SlidingWindowCounterLimiter store limit window id now s =
          (Verdict.divideByZero, s))) := by
  refine ⟨rfl, rfl, rfl, rfl, rfl, ?_⟩
  intro h1 h2
  have hz := divisor_eq_zero_of_short window h1 h2
  refine ⟨?_, ?_⟩
  · intro id now s
    simp [FixedWindowLimiter, hz]
  · intro id now s
    simp [SlidingWindowCounterLimiter, hz]

/-- C15 amended, at a concrete input: the limit 0, the window 0, the rate 0 and the burst 0 over
the in-process store. The constructor returns the handler, and a request through it divides by
zero. -/
theorem C15_constructors_do_not_validate_witness :
    setupFixedWindowLimiter (MemoryStore.store unitLibrary) 0 0 =
      Setup.returned (FixedWindowLimiter (MemoryStore.store unitLibrary) 0 0) ∧
    (FixedWindowLimiter (MemoryStore.store unitLibrary) 0 0 "10.0.0.1" 7
      (MemoryStore.NewMemoryStore (fun n => (n : Int)))).1 = Verdict.divideByZero :=
  ⟨(C15_constructors_do_not_validate (MemoryStore.store unitLibrary) 0 0 0 0).1,
   congrArg Prod.fst
    (((C15_constructors_do_not_validate (MemoryStore.store unitLibrary) 0 0 0 0).2.2.2.2.2
      (by decide) (by decide)).1 "10.0.0.1" 7
        (MemoryStore.NewMemoryStore (fun n => (n : Int))))⟩

end SetupOfLimiters

/-! ## Concurrent increments -/

section ConcurrentIncrements

variable {Λ : Type}

/-- A goroutine that runs alone through its four steps does what `Increment` does. -/
theorem runSchedule_alone (s : MemoryStore Λ) (key : String) (window : Int) :
    ((runSchedule key window [0, 0, 0, 0] (s, [{}])).1.entry key).value =
      (s.Increment key window).1.1 ∧
    (runSchedule key window [0, 0, 0, 0] (s, [{}])).1.clock = (s.Increment key window).2.clock ∧
    (runSchedule key window [0, 0, 0, 0] (s, [{}])).2 = [{ pc := 4, loaded :=
      (s.Increment key window).1.1 - 1 }] := by
  by_cases h : s.clock 1 - s.clock 0 > window
  · simp [runSchedule, incStep, MemoryStore.Increment, MemoryStore.getVisitor, MemoryStore.tick,
      MemoryStore.put, MemoryStore.entry, h]
  · simp [runSchedule, incStep, MemoryStore.Increment, MemoryStore.getVisitor, MemoryStore.tick,
      MemoryStore.put, MemoryStore.entry, h]

/-- C16, what the code does. Two goroutines run `Increment` on the same fresh key with a window of
one second. Under the schedule that alternates them step by step both load `v.value = 0` before
either stores, both store 1, and both have finished: the final count is 1, one update is lost.
Under the schedule that runs them one after the other the final count is 2. -/
theorem C16_lost_update_code :
    ((runSchedule "fw:10.0.0.1:0" Second [0, 1, 0, 1, 0, 1, 0, 1]
        ((MemoryStore.NewMemoryStore (fun n => (n : Int)) : MemoryStore Unit),
          [{}, {}])).1.entry "fw:10.0.0.1:0").value = 1 ∧
    ((runSchedule "fw:10.0.0.1:0" Second [0, 1, 0, 1, 0, 1, 0, 1]
        ((MemoryStore.NewMemoryStore (fun n => (n : Int)) : MemoryStore Unit),
          [{}, {}])).2.map (fun th => th.pc)) = [4, 4] ∧
    ((runSchedule "fw:10.0.0.1:0" Second [0, 0, 0, 0, 1, 1, 1, 1]
        ((MemoryStore.NewMemoryStore (fun n => (n : Int)) : MemoryStore Unit),
          [{}, {}])).1.entry "fw:10.0.0.1:0").value = 2 := by
  refine ⟨?_, ?_, ?_⟩ <;> decide

end ConcurrentIncrements

end Limiter
